import Mathlib

/-!
Verification development for the prompt-versioner repository.

Part 1 embeds the semantic-version resolution code of
`src/prompt_versioner/core.py` (`_parse_version`, `_format_version`,
`_calculate_next_version` and the `VersionBump` / `PreReleaseLabel` enums).
Python `int` is modelled as `Nat` (all components are non-negative), version
strings as `String`, and the regex
`^(\d+)\.(\d+)\.(\d+)(?:-([A-Za-z]+)(?:\.(\d+))?)?$` as a deterministic
hand-rolled scanner over the character list (the grammar is unambiguous, so
regex backtracking never changes the outcome).  `\d` / `[A-Za-z]` are
modelled by the ASCII classifiers `Char.isDigit` / `Char.isAlpha`.
-/

namespace PromptVersioner

/-- Type of version bump following SemVer 2.0.0 (enum `VersionBump`). -/
inductive VersionBump
  | major
  | minor
  | patch
deriving DecidableEq, Repr

/-- Pre-release labels for versioning (enum `PreReleaseLabel`). -/
inductive PreReleaseLabel
  | snapshot
  | milestone
  | rc
  | stable
deriving DecidableEq, Repr

/-- The `.value` attribute of `PreReleaseLabel`: `SNAPSHOT`, `M`, `RC`,
and `None` for `STABLE`. -/
def labelValue : PreReleaseLabel → Option String
  | .snapshot => some "SNAPSHOT"
  | .milestone => some "M"
  | .rc => some "RC"
  | .stable => none

/-- Result of `_parse_version`: the dict with parsed components. -/
structure ParsedVersion where
  major : Nat
  minor : Nat
  patch : Nat
  pre_label : Option String
  pre_number : Option Nat
deriving DecidableEq, Repr

/-- Value of a most-significant-first list of decimal digit characters,
modelling Python `int(...)` applied to a digits-only capture group. -/
def digitsVal (cs : List Char) : Nat :=
  cs.foldl (fun a c => 10 * a + (c.toNat - 48)) 0

/-- Scanner equivalent of the anchored regex
`^(\\d+)\\.(\\d+)\\.(\\d+)(?:-([A-Za-z]+)(?:\\.(\\d+))?)?$` used by
`_parse_version`.  The grammar is unambiguous, so the deterministic scan
agrees with the backtracking regex engine. -/
def parseVersionChars (cs : List Char) : Option ParsedVersion :=
  if cs.takeWhile Char.isDigit = [] then none else
  match cs.dropWhile Char.isDigit with
  | '.' :: r2 =>
    if r2.takeWhile Char.isDigit = [] then none else
    match r2.dropWhile Char.isDigit with
    | '.' :: r4 =>
      if r4.takeWhile Char.isDigit = [] then none else
      match r4.dropWhile Char.isDigit with
      | [] =>
        some ⟨digitsVal (cs.takeWhile Char.isDigit),
          digitsVal (r2.takeWhile Char.isDigit),
          digitsVal (r4.takeWhile Char.isDigit), none, none⟩
      | '-' :: r6 =>
        if r6.takeWhile Char.isAlpha = [] then none else
        match r6.dropWhile Char.isAlpha with
        | [] =>
          some ⟨digitsVal (cs.takeWhile Char.isDigit),
            digitsVal (r2.takeWhile Char.isDigit),
            digitsVal (r4.takeWhile Char.isDigit),
            some (String.mk (r6.takeWhile Char.isAlpha)), none⟩
        | '.' :: r8 =>
          if r8.takeWhile Char.isDigit = [] then none
          else if r8.dropWhile Char.isDigit = [] then
            some ⟨digitsVal (cs.takeWhile Char.isDigit),
              digitsVal (r2.takeWhile Char.isDigit),
              digitsVal (r4.takeWhile Char.isDigit),
              some (String.mk (r6.takeWhile Char.isAlpha)),
              some (digitsVal (r8.takeWhile Char.isDigit))⟩
          else none
        | _ => none
      | _ => none
    | _ => none
  | _ => none

/-- Embedding of `PromptVersioner._parse_version`. -/
def parseVersion (s : String) : Option ParsedVersion :=
  parseVersionChars s.toList

/-- Embedding of `PromptVersioner._format_version`.  The Python guard
`if pre_label and pre_label != PreReleaseLabel.STABLE` is `pre_label is
not None and pre_label != STABLE` (enum members are truthy). -/
def formatVersion (major minor patch : Nat) (pre_label : Option PreReleaseLabel)
    (pre_number : Option Nat) : String :=
  let base := toString major ++ "." ++ toString minor ++ "." ++ toString patch
  match pre_label with
  | some l =>
    if l ≠ PreReleaseLabel.stable then
      match pre_number with
      | some n => base ++ "-" ++ (labelValue l).getD "" ++ "." ++ toString n
      | none => base ++ "-" ++ (labelValue l).getD ""
    else base
  | none => base

/-- Embedding of `PromptVersioner._calculate_next_version`. -/
def calcNextVersion (current_version : Option String) (bump_type : VersionBump)
    (pre_label : Option PreReleaseLabel) (pre_number : Option Nat) : String :=
  let mmp : Nat × Nat × Nat :=
    match current_version with
    | none => (1, 0, 0)
    | some v =>
      match parseVersion v with
      | none => (1, 0, 0)
      | some parsed =>
        if pre_label = some PreReleaseLabel.stable ∧ parsed.pre_label ≠ none ∧
            bump_type = VersionBump.patch then
          (parsed.major, parsed.minor, parsed.patch)
        else
          match bump_type with
          | .major => (parsed.major + 1, 0, 0)
          | .minor => (parsed.major, parsed.minor + 1, 0)
          | .patch => (parsed.major, parsed.minor, parsed.patch + 1)
  formatVersion mmp.1 mmp.2.1 mmp.2.2 pre_label pre_number

/-! Decimal printing facts: `toString (n : Nat)` produces a non-empty string
of digit characters whose value is `n`.  These are needed to re-parse the
strings produced by `_format_version`. -/

theorem digitsVal_append_singleton (cs : List Char) (c : Char) :
    digitsVal (cs ++ [c]) = 10 * digitsVal cs + (c.toNat - 48) := by
  simp [digitsVal, List.foldl_append]

theorem digitChar_isDigit {r : Nat} (h : r < 10) :
    (Nat.digitChar r).isDigit = true := by
  interval_cases r <;> decide

theorem digitChar_val {r : Nat} (h : r < 10) :
    (Nat.digitChar r).toNat - 48 = r := by
  interval_cases r <;> decide

theorem toDigitsCore_spec :
    ∀ (n fuel : Nat) (ds : List Char), n < fuel →
      ∃ cs, Nat.toDigitsCore 10 fuel n ds = cs ++ ds ∧ cs ≠ [] ∧
        (∀ c ∈ cs, c.isDigit = true) ∧ digitsVal cs = n := by
  intro n
  induction n using Nat.strong_induction_on with
  | _ n ih =>
    intro fuel ds hf
    match fuel, hf with
    | fuel + 1, _ =>
      have hr : n % 10 < 10 := Nat.mod_lt _ (by omega)
      by_cases h10 : n / 10 = 0
      · refine ⟨[Nat.digitChar (n % 10)], ?_, by simp, ?_, ?_⟩
        · simp [Nat.toDigitsCore, h10]
        · intro c hc
          simp at hc
          subst hc
          exact digitChar_isDigit hr
        · have hn : n < 10 := by omega
          simp only [digitsVal, List.foldl_cons, List.foldl_nil]
          rw [Nat.mul_zero, Nat.zero_add, digitChar_val hr, Nat.mod_eq_of_lt hn]
      · have hlt : n / 10 < n := Nat.div_lt_self (by omega) (by omega)
        have hfuel : n / 10 < fuel := by omega
        obtain ⟨cs, hEq, hne, hdig, hval⟩ :=
          ih (n / 10) hlt fuel (Nat.digitChar (n % 10) :: ds) hfuel
        refine ⟨cs ++ [Nat.digitChar (n % 10)], ?_, by simp, ?_, ?_⟩
        · simp only [Nat.toDigitsCore, h10, if_false]
          rw [hEq]
          simp
        · intro c hc
          rcases List.mem_append.mp hc with h | h
          · exact hdig c h
          · simp at h
            subst h
            exact digitChar_isDigit hr
        · rw [digitsVal_append_singleton, hval, digitChar_val hr]
          omega

/-- Character list of the decimal representation of `n`. -/
def natChars (n : Nat) : List Char := Nat.toDigits 10 n

theorem natChars_spec (n : Nat) :
    natChars n ≠ [] ∧ (∀ c ∈ natChars n, c.isDigit = true) ∧
      digitsVal (natChars n) = n := by
  obtain ⟨cs, hEq, hne, hdig, hval⟩ :=
    toDigitsCore_spec n (n + 1) [] (Nat.lt_succ_self n)
  have : natChars n = cs := by
    simpa [natChars, Nat.toDigits] using hEq
  rw [this]
  exact ⟨hne, hdig, hval⟩

theorem toString_nat_data (n : Nat) : (toString n).data = natChars n := rfl

theorem takeWhile_all_eq {p : Char → Bool} (d : List Char)
    (hd : ∀ c ∈ d, p c = true) :
    d.takeWhile p = d ∧ d.dropWhile p = [] := by
  induction d with
  | nil => simp
  | cons a t ih =>
    have ha := hd a (by simp)
    have ht := ih (fun c hc => hd c (by simp [hc]))
    simp [List.takeWhile_cons, List.dropWhile_cons, ha, ht.1, ht.2]

theorem parse_chars_stable (d1 d2 d3 : List Char)
    (h1 : d1 ≠ []) (hd1 : ∀ c ∈ d1, c.isDigit = true)
    (h2 : d2 ≠ []) (hd2 : ∀ c ∈ d2, c.isDigit = true)
    (h3 : d3 ≠ []) (hd3 : ∀ c ∈ d3, c.isDigit = true) :
    parseVersionChars (d1 ++ '.' :: (d2 ++ '.' :: d3)) =
      some ⟨digitsVal d1, digitsVal d2, digitsVal d3, none, none⟩ := by
  have hdot : ('.' : Char).isDigit = false := by decide
  unfold parseVersionChars
  simp [List.takeWhile_append_of_pos hd1, List.dropWhile_append_of_pos hd1,
    List.takeWhile_append_of_pos hd2, List.dropWhile_append_of_pos hd2,
    List.takeWhile_cons, List.dropWhile_cons, hdot,
    (takeWhile_all_eq d3 hd3).1, (takeWhile_all_eq d3 hd3).2, h1, h2, h3]

theorem parse_chars_label (d1 d2 d3 lab : List Char)
    (h1 : d1 ≠ []) (hd1 : ∀ c ∈ d1, c.isDigit = true)
    (h2 : d2 ≠ []) (hd2 : ∀ c ∈ d2, c.isDigit = true)
    (h3 : d3 ≠ []) (hd3 : ∀ c ∈ d3, c.isDigit = true)
    (hl : lab ≠ []) (hdl : ∀ c ∈ lab, c.isAlpha = true) :
    parseVersionChars (d1 ++ '.' :: (d2 ++ '.' :: (d3 ++ '-' :: lab))) =
      some ⟨digitsVal d1, digitsVal d2, digitsVal d3, some (String.mk lab),
        none⟩ := by
  have hdot : ('.' : Char).isDigit = false := by decide
  have hdash : ('-' : Char).isDigit = false := by decide
  unfold parseVersionChars
  simp [List.takeWhile_append_of_pos hd1, List.dropWhile_append_of_pos hd1,
    List.takeWhile_append_of_pos hd2, List.dropWhile_append_of_pos hd2,
    List.takeWhile_append_of_pos hd3, List.dropWhile_append_of_pos hd3,
    List.takeWhile_cons, List.dropWhile_cons, hdot, hdash,
    (takeWhile_all_eq lab hdl).1, (takeWhile_all_eq lab hdl).2,
    h1, h2, h3, hl]

theorem parse_chars_label_num (d1 d2 d3 lab d4 : List Char)
    (h1 : d1 ≠ []) (hd1 : ∀ c ∈ d1, c.isDigit = true)
    (h2 : d2 ≠ []) (hd2 : ∀ c ∈ d2, c.isDigit = true)
    (h3 : d3 ≠ []) (hd3 : ∀ c ∈ d3, c.isDigit = true)
    (hl : lab ≠ []) (hdl : ∀ c ∈ lab, c.isAlpha = true)
    (h4 : d4 ≠ []) (hd4 : ∀ c ∈ d4, c.isDigit = true) :
    parseVersionChars
        (d1 ++ '.' :: (d2 ++ '.' :: (d3 ++ '-' :: (lab ++ '.' :: d4)))) =
      some ⟨digitsVal d1, digitsVal d2, digitsVal d3, some (String.mk lab),
        some (digitsVal d4)⟩ := by
  have hdot : ('.' : Char).isDigit = false := by decide
  have hdash : ('-' : Char).isDigit = false := by decide
  have hdota : ('.' : Char).isAlpha = false := by decide
  unfold parseVersionChars
  simp [List.takeWhile_append_of_pos hd1, List.dropWhile_append_of_pos hd1,
    List.takeWhile_append_of_pos hd2, List.dropWhile_append_of_pos hd2,
    List.takeWhile_append_of_pos hd3, List.dropWhile_append_of_pos hd3,
    List.takeWhile_append_of_pos hdl, List.dropWhile_append_of_pos hdl,
    List.takeWhile_cons, List.dropWhile_cons, hdot, hdash, hdota,
    (takeWhile_all_eq d4 hd4).1, (takeWhile_all_eq d4 hd4).2,
    h1, h2, h3, hl, h4]

theorem string_dot_data : ("." : String).data = ['.'] := rfl

theorem string_dash_data : ("-" : String).data = ['-'] := rfl

theorem formatVersion_stable_data (M N P : Nat) (num : Option Nat) :
    (formatVersion M N P none num).data =
      natChars M ++ '.' :: (natChars N ++ '.' :: natChars P) := by
  simp [formatVersion, String.data_append, toString_nat_data,
    string_dot_data]

theorem formatVersion_some_stable (M N P : Nat) (num : Option Nat) :
    formatVersion M N P (some PreReleaseLabel.stable) num =
      formatVersion M N P none num := by
  simp [formatVersion]

theorem parse_formatVersion_stable (M N P : Nat) (num : Option Nat) :
    parseVersion (formatVersion M N P none num) =
      some ⟨M, N, P, none, none⟩ := by
  obtain ⟨hm1, hm2, hm3⟩ := natChars_spec M
  obtain ⟨hn1, hn2, hn3⟩ := natChars_spec N
  obtain ⟨hp1, hp2, hp3⟩ := natChars_spec P
  show parseVersionChars (formatVersion M N P none num).data = _
  rw [formatVersion_stable_data,
    parse_chars_stable _ _ _ hm1 hm2 hn1 hn2 hp1 hp2, hm3, hn3, hp3]

theorem labelValue_chars (l : PreReleaseLabel)
    (h : l ≠ PreReleaseLabel.stable) :
    ∃ cs, labelValue l = some (String.mk cs) ∧ cs ≠ [] ∧
      ∀ c ∈ cs, c.isAlpha = true := by
  cases l with
  | snapshot =>
    exact ⟨['S', 'N', 'A', 'P', 'S', 'H', 'O', 'T'], rfl, by decide, by decide⟩
  | milestone => exact ⟨['M'], rfl, by decide, by decide⟩
  | rc => exact ⟨['R', 'C'], rfl, by decide, by decide⟩
  | stable => exact absurd rfl h

theorem parse_formatVersion_label (M N P : Nat) (l : PreReleaseLabel)
    (h : l ≠ PreReleaseLabel.stable) :
    parseVersion (formatVersion M N P (some l) none) =
      some ⟨M, N, P, labelValue l, none⟩ := by
  obtain ⟨hm1, hm2, hm3⟩ := natChars_spec M
  obtain ⟨hn1, hn2, hn3⟩ := natChars_spec N
  obtain ⟨hp1, hp2, hp3⟩ := natChars_spec P
  obtain ⟨cs, hval, hcne, hca⟩ := labelValue_chars l h
  have hdata : (formatVersion M N P (some l) none).data =
      natChars M ++ '.' :: (natChars N ++ '.' :: (natChars P ++ '-' :: cs)) := by
    simp [formatVersion, h, String.data_append, toString_nat_data,
      string_dot_data, string_dash_data, hval]
  show parseVersionChars (formatVersion M N P (some l) none).data = _
  rw [hdata, parse_chars_label _ _ _ _ hm1 hm2 hn1 hn2 hp1 hp2 hcne hca,
    hm3, hn3, hp3, hval]

theorem parse_formatVersion_label_num (M N P : Nat) (l : PreReleaseLabel)
    (num : Nat) (h : l ≠ PreReleaseLabel.stable) :
    parseVersion (formatVersion M N P (some l) (some num)) =
      some ⟨M, N, P, labelValue l, some num⟩ := by
  obtain ⟨hm1, hm2, hm3⟩ := natChars_spec M
  obtain ⟨hn1, hn2, hn3⟩ := natChars_spec N
  obtain ⟨hp1, hp2, hp3⟩ := natChars_spec P
  obtain ⟨hq1, hq2, hq3⟩ := natChars_spec num
  obtain ⟨cs, hval, hcne, hca⟩ := labelValue_chars l h
  have hdata : (formatVersion M N P (some l) (some num)).data =
      natChars M ++ '.' :: (natChars N ++ '.' ::
        (natChars P ++ '-' :: (cs ++ '.' :: natChars num))) := by
    simp [formatVersion, h, String.data_append, toString_nat_data,
      string_dot_data, string_dash_data, hval]
  show parseVersionChars (formatVersion M N P (some l) (some num)).data = _
  rw [hdata,
    parse_chars_label_num _ _ _ _ _ hm1 hm2 hn1 hn2 hp1 hp2 hcne hca hq1 hq2,
    hm3, hn3, hp3, hq3, hval]

theorem parse_formatVersion_triple (M N P : Nat) (lab : Option PreReleaseLabel)
    (num : Option Nat) :
    (parseVersion (formatVersion M N P lab num)).map
      (fun p => (p.major, p.minor, p.patch)) = some (M, N, P) := by
  match lab with
  | none => rw [parse_formatVersion_stable]; rfl
  | some PreReleaseLabel.stable =>
    rw [formatVersion_some_stable, parse_formatVersion_stable]; rfl
  | some PreReleaseLabel.snapshot =>
    match num with
    | none => rw [parse_formatVersion_label _ _ _ _ (by decide)]; rfl
    | some n => rw [parse_formatVersion_label_num _ _ _ _ _ (by decide)]; rfl
  | some PreReleaseLabel.milestone =>
    match num with
    | none => rw [parse_formatVersion_label _ _ _ _ (by decide)]; rfl
    | some n => rw [parse_formatVersion_label_num _ _ _ _ _ (by decide)]; rfl
  | some PreReleaseLabel.rc =>
    match num with
    | none => rw [parse_formatVersion_label _ _ _ _ (by decide)]; rfl
    | some n => rw [parse_formatVersion_label_num _ _ _ _ _ (by decide)]; rfl

/-- C1 counterexample: with no current version but a non-stable pre-release
label, `_calculate_next_version` does not return exactly `"1.0.0"`: for
`bump=PATCH`, `pre_label=SNAPSHOT` it returns `"1.0.0-SNAPSHOT"`. -/
theorem c1_first_version_counterexample :
    calcNextVersion none VersionBump.patch (some PreReleaseLabel.snapshot) none
        = "1.0.0-SNAPSHOT" ∧
    ("1.0.0-SNAPSHOT" : String) ≠ "1.0.0" := by
  exact ⟨by decide, by decide⟩

/-- C1 amended: with no current version, for every bump kind the numeric
triple of the result is always `1.0.0`; the result is exactly `"1.0.0"`
when the pre-release label is absent or `STABLE`, and otherwise `"1.0.0"`
suffixed with the label (and number). -/
theorem c1_first_version_amended (bump : VersionBump)
    (lab : Option PreReleaseLabel) (num : Option Nat) :
    (parseVersion (calcNextVersion none bump lab num)).map
        (fun p => (p.major, p.minor, p.patch)) = some (1, 0, 0) ∧
    calcNextVersion none bump none num = "1.0.0" ∧
    calcNextVersion none bump (some PreReleaseLabel.stable) num = "1.0.0" := by
  have hcalc : ∀ (l2 : Option PreReleaseLabel) (n2 : Option Nat),
      calcNextVersion none bump l2 n2 = formatVersion 1 0 0 l2 n2 :=
    fun _ _ => rfl
  refine ⟨?_, ?_, ?_⟩
  · rw [hcalc, parse_formatVersion_triple]
  · rw [hcalc]; rfl
  · rw [hcalc, formatVersion_some_stable]; rfl

/-- C3: a current version carrying a pre-release label, bumped with
`bump=PATCH` and `pre_label=STABLE`, keeps the numeric `major.minor.patch`
triple unchanged and drops the label. -/
theorem c3_promote_keeps_triple (v : String) (p : ParsedVersion)
    (num : Option Nat) (hp : parseVersion v = some p)
    (hl : p.pre_label ≠ none) :
    calcNextVersion (some v) VersionBump.patch (some PreReleaseLabel.stable)
        num = formatVersion p.major p.minor p.patch none num ∧
    parseVersion (calcNextVersion (some v) VersionBump.patch
        (some PreReleaseLabel.stable) num) =
      some ⟨p.major, p.minor, p.patch, none, none⟩ := by
  have h1 : calcNextVersion (some v) VersionBump.patch
      (some PreReleaseLabel.stable) num =
      formatVersion p.major p.minor p.patch (some PreReleaseLabel.stable)
        num := by
    simp [calcNextVersion, hp, hl]
  rw [h1, formatVersion_some_stable]
  exact ⟨rfl, parse_formatVersion_stable _ _ _ _⟩

/-- C3 witness: `("1.0.0-RC.2", PATCH, STABLE)` resolves to `"1.0.0"`. -/
theorem c3_promote_keeps_triple_witness :
    parseVersion "1.0.0-RC.2" = some ⟨1, 0, 0, some "RC", some 2⟩ ∧
    calcNextVersion (some "1.0.0-RC.2") VersionBump.patch
        (some PreReleaseLabel.stable) none = "1.0.0" := by
  refine ⟨by decide, ?_⟩
  have h := c3_promote_keeps_triple "1.0.0-RC.2" ⟨1, 0, 0, some "RC", some 2⟩
    none (by decide) (by decide)
  rw [h.1]
  decide

/-- C4 counterexample: for `V = "1.0.0-RC.2"`, resolving `(V, PATCH,
STABLE)` yields `"1.0.0"`, whose patch component equals the patch
component of `V` (both 0): the first resolution does not strictly
increase the patch. -/
theorem c4_patch_twice_counterexample :
    calcNextVersion (some "1.0.0-RC.2") VersionBump.patch
        (some PreReleaseLabel.stable) none = "1.0.0" ∧
    (parseVersion "1.0.0-RC.2").map (fun p => p.patch) = some 0 ∧
    (parseVersion "1.0.0").map (fun p => p.patch) = some 0 := by
  exact ⟨by decide, by decide, by decide⟩

/-- C4 amended: for every version string that parses with no pre-release
label, resolving `(V, PATCH, STABLE)` twice strictly increases the patch
component twice while holding major and minor fixed. -/
theorem c4_patch_twice_amended (v : String) (p : ParsedVersion)
    (num : Option Nat) (hp : parseVersion v = some p)
    (hl : p.pre_label = none) :
    parseVersion (calcNextVersion (some v) VersionBump.patch
        (some PreReleaseLabel.stable) num) =
      some ⟨p.major, p.minor, p.patch + 1, none, none⟩ ∧
    parseVersion (calcNextVersion (some (calcNextVersion (some v)
        VersionBump.patch (some PreReleaseLabel.stable) num))
        VersionBump.patch (some PreReleaseLabel.stable) num) =
      some ⟨p.major, p.minor, p.patch + 2, none, none⟩ := by
  have h1 : calcNextVersion (some v) VersionBump.patch
      (some PreReleaseLabel.stable) num =
      formatVersion p.major p.minor (p.patch + 1)
        (some PreReleaseLabel.stable) num := by
    simp [calcNextVersion, hp, hl]
  have hparse1 : parseVersion (calcNextVersion (some v) VersionBump.patch
      (some PreReleaseLabel.stable) num) =
      some ⟨p.major, p.minor, p.patch + 1, none, none⟩ := by
    rw [h1, formatVersion_some_stable]
    exact parse_formatVersion_stable _ _ _ _
  refine ⟨hparse1, ?_⟩
  have h2 : calcNextVersion (some (calcNextVersion (some v)
      VersionBump.patch (some PreReleaseLabel.stable) num))
      VersionBump.patch (some PreReleaseLabel.stable) num =
      formatVersion p.major p.minor (p.patch + 1 + 1)
        (some PreReleaseLabel.stable) num := by
    generalize hs1 : calcNextVersion (some v) VersionBump.patch
      (some PreReleaseLabel.stable) num = s1 at hparse1 ⊢
    simp [calcNextVersion, hparse1]
  rw [h2, formatVersion_some_stable]
  have := parse_formatVersion_stable p.major p.minor (p.patch + 1 + 1) num
  simpa using this

/-- C4 witness: `"2.3.4"` resolves to `"2.3.5"` and then `"2.3.6"`. -/
theorem c4_patch_twice_amended_witness :
    parseVersion "2.3.4" = some ⟨2, 3, 4, none, none⟩ ∧
    parseVersion (calcNextVersion (some "2.3.4") VersionBump.patch
        (some PreReleaseLabel.stable) none) = some ⟨2, 3, 5, none, none⟩ ∧
    parseVersion (calcNextVersion (some (calcNextVersion (some "2.3.4")
        VersionBump.patch (some PreReleaseLabel.stable) none))
        VersionBump.patch (some PreReleaseLabel.stable) none) =
      some ⟨2, 3, 6, none, none⟩ := by
  have h := c4_patch_twice_amended "2.3.4" ⟨2, 3, 4, none, none⟩ none
    (by decide) (by decide)
  exact ⟨by decide, h.1, h.2⟩

/-- C6: an unparseable current-version string is treated exactly like an
absent current version: resolution never fails and starts fresh from the
`1.0.0` triple. -/
theorem c6_unparseable_starts_fresh (v : String) (bump : VersionBump)
    (lab : Option PreReleaseLabel) (num : Option Nat)
    (hv : parseVersion v = none) :
    calcNextVersion (some v) bump lab num =
        calcNextVersion none bump lab num ∧
    calcNextVersion (some v) bump lab num = formatVersion 1 0 0 lab num := by
  constructor <;> simp [calcNextVersion, hv]

/-- C6 witness: `"not-a-version"` does not parse, and resolving from it
equals resolving from an absent version. -/
theorem c6_unparseable_starts_fresh_witness :
    parseVersion "not-a-version" = none ∧
    calcNextVersion (some "not-a-version") VersionBump.minor
        (some PreReleaseLabel.rc) (some 1) =
      calcNextVersion none VersionBump.minor (some PreReleaseLabel.rc)
        (some 1) := by
  exact ⟨by decide, (c6_unparseable_starts_fresh "not-a-version"
    VersionBump.minor (some PreReleaseLabel.rc) (some 1) (by decide)).1⟩

/-!
Part 2 embeds `src/prompt_versioner/metrics.py`: `MetricsTracker.compute_stats`
/ `compare_metrics` and `MetricAggregator.get_summary`.  Python floats are
modelled as rationals (`ℚ`); the claims in scope concern guarded division,
filtering and counting structure, not rounding.  Python dicts of metric
values are modelled as association lists with first-occurrence lookup
(Python dict keys are unique, and the per-metric results never depend on
iteration order).
-/

/-- Statistical summary computed by `MetricsTracker.compute_stats`,
restricted to the fields read by downstream comparison code (`count`,
`mean`, `min`, `max`).  `median` and `std_dev` are computed by the source
but only displayed, never read by `compare_metrics` / `detect_regression`
or any claim; `std_dev` is a square root and has no exact value in `ℚ`,
so the two display fields are omitted. -/
structure StatsQ where
  count : Nat
  mean : ℚ
  min : ℚ
  max : ℚ
deriving DecidableEq, Repr

/-- Embedding of `MetricsTracker.compute_stats` (empty input yields the
all-zero summary, otherwise arithmetic mean, min and max). -/
def computeStats (values : List ℚ) : StatsQ :=
  if values = [] then ⟨0, 0, 0, 0⟩
  else ⟨values.length, values.sum / values.length,
    (values.min?).getD 0, (values.max?).getD 0⟩

/-- One entry of the dict returned by `MetricsTracker.compare_metrics`. -/
structure CompEntry where
  baseline : StatsQ
  new : StatsQ
  mean_diff : ℚ
  mean_pct_change : ℚ
  improved : Bool
deriving DecidableEq, Repr

/-- Embedding of `MetricsTracker.compare_metrics`: for every metric name
present in both inputs, compare the statistics; `mean_pct_change` is 0
when the baseline mean is 0, else `mean_diff / baseline_mean * 100`. -/
def compareMetrics (baseline_metrics new_metrics : List (String × List ℚ)) :
    List (String × CompEntry) :=
  baseline_metrics.filterMap fun nv =>
    match new_metrics.lookup nv.1 with
    | none => none
    | some new_vals =>
      let baseline_stats := computeStats nv.2
      let new_stats := computeStats new_vals
      let mean_diff := new_stats.mean - baseline_stats.mean
      let mean_pct_change :=
        if baseline_stats.mean ≠ 0 then mean_diff / baseline_stats.mean * 100
        else 0
      some (nv.1, ⟨baseline_stats, new_stats, mean_diff, mean_pct_change,
        decide (mean_diff > 0)⟩)

/-- C7: in `compare_metrics`, a metric whose baseline mean is 0 gets
percentage change 0 (no division error); with nonzero baseline mean the
percentage change is the relative delta `(new − baseline) / baseline`
expressed in percent. -/
theorem c7_delta_guarded_division (b n : List (String × List ℚ))
    (name : String) (e : CompEntry) (h : (name, e) ∈ compareMetrics b n) :
    (e.baseline.mean = 0 → e.mean_pct_change = 0) ∧
    (e.baseline.mean ≠ 0 → e.mean_pct_change =
      ((e.new.mean - e.baseline.mean) / e.baseline.mean) * 100) := by
  rw [compareMetrics, List.mem_filterMap] at h
  obtain ⟨⟨nm, vals⟩, hmem, hf⟩ := h
  rcases hlook : n.lookup nm with _ | new_vals <;> simp [hlook] at hf
  obtain ⟨hnm, he⟩ := hf
  subst he
  constructor
  · intro hz
    simp_all
  · intro hz
    simp_all

/-- C7 witness: metric `cost` with baseline values `[1]` and new values
`[2]` produces percentage change `100 = ((2 − 1) / 1) · 100`. -/
theorem c7_delta_guarded_division_witness :
    ("cost", (⟨⟨1, 1, 1, 1⟩, ⟨1, 2, 2, 2⟩, 1, 100, true⟩ : CompEntry)) ∈
        compareMetrics [("cost", [1])] [("cost", [2])] ∧
    ((⟨⟨1, 1, 1, 1⟩, ⟨1, 2, 2, 2⟩, 1, 100, true⟩ : CompEntry).mean_pct_change =
      (((2 : ℚ) - 1) / 1) * 100) := by
  have hlist : compareMetrics [("cost", [1])] [("cost", [2])] =
      [("cost", (⟨⟨1, 1, 1, 1⟩, ⟨1, 2, 2, 2⟩, 1, 100, true⟩ : CompEntry))] := by
    simp [compareMetrics, computeStats]
    norm_num
  have hmem : ("cost", (⟨⟨1, 1, 1, 1⟩, ⟨1, 2, 2, 2⟩, 1, 100, true⟩ :
      CompEntry)) ∈ compareMetrics [("cost", [1])] [("cost", [2])] := by
    rw [hlist]
    exact List.mem_singleton.mpr rfl
  refine ⟨hmem, ?_⟩
  have h := c7_delta_guarded_division _ _ _ _ hmem
  exact h.2 one_ne_zero

/-- Record of one LLM call (`ModelMetrics` dataclass), restricted to the
fields read by `MetricAggregator.get_summary`; `temperature`, `max_tokens`,
`error_message` and `metadata` are carried but never aggregated, so they
are omitted. -/
structure ModelMetricsQ where
  model_name : Option String := none
  input_tokens : Option ℚ := none
  output_tokens : Option ℚ := none
  total_tokens : Option ℚ := none
  cost_eur : Option ℚ := none
  latency_ms : Option ℚ := none
  quality_score : Option ℚ := none
  accuracy : Option ℚ := none
  success : Bool := true
deriving DecidableEq, Repr

/-- Python truthiness filter `[m.f for m in metrics if m.f]` applied to an
optional numeric field: `None` and `0` are falsy and dropped. -/
def truthyVals (l : List (Option ℚ)) : List ℚ :=
  l.filterMap fun o =>
    match o with
    | some x => if x ≠ 0 then some x else none
    | none => none

/-- Embedding of `MetricAggregator._avg`. -/
def aggAvg (values : List ℚ) : ℚ :=
  if values ≠ [] then values.sum / values.length else 0

/-- Summary dict produced by `MetricAggregator.get_summary`.  The source
computes `models_used = list(set(...))` whose order is unspecified; the
embedding keeps first occurrences. -/
structure AggSummary where
  call_count : Nat
  total_tokens : ℚ
  avg_input_tokens : ℚ
  avg_output_tokens : ℚ
  total_cost : ℚ
  avg_cost : ℚ
  avg_latency : ℚ
  min_latency : ℚ
  max_latency : ℚ
  avg_quality : ℚ
  avg_accuracy : ℚ
  success_rate : ℚ
  models_used : List String
deriving DecidableEq, Repr

/-- Embedding of `MetricAggregator.get_summary`: `none` models the empty
dict returned when no metrics have been added. -/
def getSummary (metrics : List ModelMetricsQ) : Option AggSummary :=
  if metrics = [] then none
  else some
    { call_count := metrics.length
      total_tokens := (metrics.map (fun m => m.total_tokens.getD 0)).sum
      avg_input_tokens := aggAvg (truthyVals (metrics.map (fun m => m.input_tokens)))
      avg_output_tokens := aggAvg (truthyVals (metrics.map (fun m => m.output_tokens)))
      total_cost := (metrics.map (fun m => m.cost_eur.getD 0)).sum
      avg_cost := aggAvg (truthyVals (metrics.map (fun m => m.cost_eur)))
      avg_latency := aggAvg (truthyVals (metrics.map (fun m => m.latency_ms)))
      min_latency := ((truthyVals (metrics.map (fun m => m.latency_ms))).min?).getD 0
      max_latency := ((truthyVals (metrics.map (fun m => m.latency_ms))).max?).getD 0
      avg_quality := aggAvg (truthyVals (metrics.map (fun m => m.quality_score)))
      avg_accuracy := aggAvg (truthyVals (metrics.map (fun m => m.accuracy)))
      success_rate := ((metrics.filter (fun m => m.success)).length : ℚ) / (metrics.length : ℚ)
      models_used := (metrics.filterMap (fun m => m.model_name)).dedup }

/-- Claim-side formulation of an aggregator average: the mean over the
records whose field value is neither `None` nor exactly 0.  Compared with
the option-pipeline computed by `get_summary`. -/
def recordAvg (ms : List ModelMetricsQ) (f : ModelMetricsQ → Option ℚ) : ℚ :=
  aggAvg ((ms.filter (fun m => f m ≠ none ∧ f m ≠ some 0)).map
    (fun m => (f m).getD 0))

theorem truthyVals_eq_filter (ms : List ModelMetricsQ)
    (f : ModelMetricsQ → Option ℚ) :
    truthyVals (ms.map f) =
      (ms.filter (fun m => f m ≠ none ∧ f m ≠ some 0)).map
        (fun m => (f m).getD 0) := by
  induction ms with
  | nil => rfl
  | cons a t ih =>
    rcases hf : f a with _ | x
    · simpa [truthyVals, List.filterMap_cons, List.filter_cons, hf] using ih
    · by_cases hx : x = 0
      · simpa [truthyVals, List.filterMap_cons, List.filter_cons, hf, hx]
          using ih
      · simpa [truthyVals, List.filterMap_cons, List.filter_cons, hf, hx]
          using ih

/-- C10: `get_summary` returns the empty dict for no metrics; otherwise
each averaged field averages only the records whose field value is truthy
(`None` and exactly 0 are excluded), while `success_rate` counts
`success=True` records over all records. -/
theorem c10_aggregator_summary (ms : List ModelMetricsQ) (hne : ms ≠ []) :
    getSummary [] = none ∧
    ∃ s, getSummary ms = some s ∧
      s.avg_cost = recordAvg ms (fun m => m.cost_eur) ∧
      s.avg_latency = recordAvg ms (fun m => m.latency_ms) ∧
      s.avg_quality = recordAvg ms (fun m => m.quality_score) ∧
      s.avg_accuracy = recordAvg ms (fun m => m.accuracy) ∧
      s.avg_input_tokens = recordAvg ms (fun m => m.input_tokens) ∧
      s.avg_output_tokens = recordAvg ms (fun m => m.output_tokens) ∧
      s.success_rate =
        ((ms.filter (fun m => m.success)).length : ℚ) / (ms.length : ℚ) := by
  refine ⟨by simp [getSummary], ?_⟩
  refine ⟨_, by rw [getSummary, if_neg hne], ?_, ?_, ?_, ?_, ?_, ?_, rfl⟩ <;>
    simp only [recordAvg, truthyVals_eq_filter]

/-- C10 witness: two records, one with cost 2 (success) and one with cost
0 (failure): the zero-cost record is excluded from `avg_cost` (2, not 1),
and `success_rate` is 1/2. -/
theorem c10_aggregator_summary_witness :
    (getSummary [{ cost_eur := some 2 }, { cost_eur := some 0, success := false }]).map
        (fun s => (s.avg_cost, s.success_rate)) = some (2, 1/2) := by
  obtain ⟨-, s, hs, hcost, -, -, -, -, -, hrate⟩ :=
    c10_aggregator_summary
      [{ cost_eur := some 2 }, { cost_eur := some 0, success := false }]
      (by simp)
  rw [hs]
  show some (s.avg_cost, s.success_rate) = some (2, 1/2)
  rw [hcost, hrate]
  norm_num [recordAvg, aggAvg, List.filter_cons, List.filter_nil,
    Option.some.injEq]
  simp

/-!
Part 3 models the regression monitor.  The module
`prompt_versioner/monitoring.py` (class `PerformanceMonitor`) is not under
`src/`; only its caller `src/prompt_versioner/web/app.py` and its default
thresholds (`web/config.py`) are.  The check is therefore modelled from
the spec.
-/

/-- Closed set of monitored metric names (spec §4.3: cost, latency,
quality, error_rate, with error_rate = 1 − success_rate). -/
inductive MetricName
  | cost
  | latency
  | quality
  | error_rate
deriving DecidableEq, Repr

/-- Metric summary as consumed by the monitor (spec §4.3). -/
structure MetricSummaryM where
  avg_cost : ℚ
  avg_latency : ℚ
  avg_quality : ℚ
  success_rate : ℚ
deriving DecidableEq, Repr

/-- One regression alert (spec §4.3: metric name, baseline and current
values, percentage change, threshold used; version identifiers are
carried by the caller and omitted here). -/
structure AlertM where
  metric_name : MetricName
  baseline_value : ℚ
  current_value : ℚ
  change_percent : ℚ
  threshold : ℚ
deriving DecidableEq, Repr

/-- Value of a named metric in a summary; `error_rate` is derived as
`1 − success_rate` (spec §4.3). -/
def metricValue (s : MetricSummaryM) : MetricName → ℚ
  | .cost => s.avg_cost
  | .latency => s.avg_latency
  | .quality => s.avg_quality
  | .error_rate => 1 - s.success_rate

/-- Direction table (spec §4.3): cost, latency and error_rate are
increase-is-bad; quality is decrease-is-bad. -/
def increaseIsBad : MetricName → Bool
  | .quality => false
  | _ => true

/-- Relative delta of a metric between two summaries, guarded against a
zero baseline (spec §4.3: `delta = (current − baseline) / baseline` when
baseline ≠ 0, else 0). -/
def regressionDelta (baseline current : MetricSummaryM) (m : MetricName) : ℚ :=
  if metricValue baseline m ≠ 0 then
    (metricValue current m - metricValue baseline m) / metricValue baseline m
  else 0

/-- Direction-aware threshold test for one configured metric
(spec §4.3). -/
def regressionFlag (baseline current : MetricSummaryM)
    (mt : MetricName × ℚ) : Bool :=
  if increaseIsBad mt.1 then
    decide (mt.2 < regressionDelta baseline current mt.1)
  else decide (regressionDelta baseline current mt.1 < mt.2)

/-- Modelled from the spec: `PerformanceMonitor.check_regression` of the
missing module `prompt_versioner/monitoring.py` (not under `src/`; only
its caller `web/app.py` and its default thresholds `web/config.py` are).
Spec §4.3: one alert per flagged configured metric, carrying the metric
name, both values, the percentage change and the threshold used. -/
def checkRegression (baseline current : MetricSummaryM)
    (thresholds : List (MetricName × ℚ)) : List AlertM :=
  thresholds.filterMap fun mt =>
    if regressionFlag baseline current mt then
      some ⟨mt.1, metricValue baseline mt.1, metricValue current mt.1,
        regressionDelta baseline current mt.1 * 100, mt.2⟩
    else none

/-- Default alert thresholds of `web/config.py`
(`DEFAULT_ALERT_THRESHOLDS`). -/
def defaultAlertThresholds : List (MetricName × ℚ) :=
  [(MetricName.cost, 20/100), (MetricName.latency, 30/100),
   (MetricName.quality, -(10/100)), (MetricName.error_rate, 5/100)]

theorem mem_checkRegression (baseline current : MetricSummaryM)
    (thresholds : List (MetricName × ℚ)) (a : AlertM) :
    a ∈ checkRegression baseline current thresholds ↔
      ∃ mt ∈ thresholds, regressionFlag baseline current mt = true ∧
        a = ⟨mt.1, metricValue baseline mt.1, metricValue current mt.1,
          regressionDelta baseline current mt.1 * 100, mt.2⟩ := by
  rw [checkRegression, List.mem_filterMap]
  constructor
  · rintro ⟨mt, hmem, hf⟩
    by_cases hflag : regressionFlag baseline current mt = true
    · rw [if_pos hflag] at hf
      cases hf
      exact ⟨mt, hmem, hflag, rfl⟩
    · rw [if_neg hflag] at hf
      exact absurd hf (by simp)
  · rintro ⟨mt, hmem, hflag, rfl⟩
    exact ⟨mt, hmem, by rw [if_pos hflag]⟩

theorem regressionFlag_iff (baseline current : MetricSummaryM)
    (m : MetricName) (thr : ℚ) (hb : metricValue baseline m ≠ 0) :
    regressionFlag baseline current (m, thr) = true ↔
      ((increaseIsBad m = true ∧
          thr < (metricValue current m - metricValue baseline m) /
            metricValue baseline m) ∨
        (increaseIsBad m = false ∧
          (metricValue current m - metricValue baseline m) /
            metricValue baseline m < thr)) := by
  rw [regressionFlag]
  simp only [regressionDelta, if_pos hb]
  rcases hinc : increaseIsBad m with _ | _ <;> simp [hinc]

/-- C2: regression checking is direction-aware.  For a configured metric
with nonzero baseline value and `delta = (current − baseline)/baseline`,
an alert for that metric and threshold is emitted iff the metric is
increase-is-bad (cost, latency, error_rate) and `delta > threshold`, or
the metric is quality and `delta < threshold`; below-threshold metrics
produce no alert. -/
theorem c2_regression_direction_aware (baseline current : MetricSummaryM)
    (thresholds : List (MetricName × ℚ)) (m : MetricName) (thr : ℚ)
    (hmem : (m, thr) ∈ thresholds) (hb : metricValue baseline m ≠ 0) :
    (∃ a ∈ checkRegression baseline current thresholds,
        a.metric_name = m ∧ a.threshold = thr) ↔
      (((m = MetricName.cost ∨ m = MetricName.latency ∨
            m = MetricName.error_rate) ∧
          thr < (metricValue current m - metricValue baseline m) /
            metricValue baseline m) ∨
        (m = MetricName.quality ∧
          (metricValue current m - metricValue baseline m) /
            metricValue baseline m < thr)) := by
  have hdir : (increaseIsBad m = true) ↔
      (m = MetricName.cost ∨ m = MetricName.latency ∨
        m = MetricName.error_rate) := by
    cases m <;> simp [increaseIsBad]
  have hdirq : (increaseIsBad m = false) ↔ m = MetricName.quality := by
    cases m <;> simp [increaseIsBad]
  constructor
  · rintro ⟨a, ha, ham, hat⟩
    rw [mem_checkRegression] at ha
    obtain ⟨⟨m2, t2⟩, hmem2, hflag, rfl⟩ := ha
    simp only at ham hat
    subst ham
    subst hat
    rcases (regressionFlag_iff baseline current _ _ hb).mp hflag with
      ⟨hinc, hlt⟩ | ⟨hinc, hlt⟩
    · exact Or.inl ⟨hdir.mp hinc, hlt⟩
    · exact Or.inr ⟨hdirq.mp hinc, hlt⟩
  · intro hcond
    have hflag : regressionFlag baseline current (m, thr) = true := by
      rw [regressionFlag_iff baseline current m thr hb]
      rcases hcond with ⟨hm, hlt⟩ | ⟨hm, hlt⟩
      · exact Or.inl ⟨hdir.mpr hm, hlt⟩
      · exact Or.inr ⟨hdirq.mpr hm, hlt⟩
    refine ⟨⟨m, metricValue baseline m, metricValue current m,
      regressionDelta baseline current m * 100, thr⟩, ?_, rfl, rfl⟩
    rw [mem_checkRegression]
    exact ⟨(m, thr), hmem, hflag, rfl⟩

/-- C2 witness: baseline avg_cost 1, current avg_cost 5/4, cost threshold
20%: delta = 1/4 exceeds the threshold, so a cost alert is emitted. -/
theorem c2_regression_direction_aware_witness :
    ∃ a ∈ checkRegression ⟨1, 100, 9/10, 1⟩ ⟨5/4, 100, 9/10, 1⟩
        [(MetricName.cost, 20/100)],
      a.metric_name = MetricName.cost ∧ a.threshold = 20/100 := by
  refine (c2_regression_direction_aware ⟨1, 100, 9/10, 1⟩ ⟨5/4, 100, 9/10, 1⟩
    [(MetricName.cost, 20/100)] MetricName.cost (20/100)
    (by simp) (by norm_num [metricValue])).mpr ?_
  left
  refine ⟨Or.inl rfl, ?_⟩
  norm_num [metricValue]

/-!
Part 4 embeds the storage layer (`src/prompt_versioner/storage.py`) and
the `PromptVersioner` operations `save_version`, `diff` and `rollback`
(`src/prompt_versioner/core.py`).  The SQLite table `prompt_versions`
(`UNIQUE(name, version)`, autoincrement `id`) is modelled as a list of
rows in insertion order plus the next id; row timestamps are a strictly
increasing counter.  Python exceptions are modelled with `Except String`.
The embedding fixes `enable_git=False` (no Git repository), so
`git_commit` is always `None` and a version-less, bump-less save falls
back to content hashing; the hash function (`PromptHasher.compute_hash`
of the `tracker` module, which is not under `src/`) is an explicit
parameter, and `metadata` dicts are association lists of strings.
-/

/-- One row of the `prompt_versions` table. -/
structure VersionRow where
  id : Nat
  name : String
  version : String
  system_prompt : String
  user_prompt : String
  metadata : Option (List (String × String))
  git_commit : Option String
  timestamp : Nat
deriving DecidableEq, Repr

/-- State of the `prompt_versions` table (insertion order), with the
autoincrement counter and the clock used for `timestamp`. -/
structure StorageState where
  rows : List VersionRow
  nextId : Nat
  clock : Nat
deriving DecidableEq, Repr

/-- Embedding of `PromptStorage.get_version` (`SELECT * WHERE name = ?
AND version = ?`, first row). -/
def storageGetVersion (st : StorageState) (name version : String) :
    Option VersionRow :=
  st.rows.find? (fun r => r.name = name ∧ r.version = version)

/-- Embedding of `PromptStorage.save_version` (a plain `INSERT`; the
existence check lives in `PromptVersioner.save_version`, which is the
only caller modelled here). -/
def storageSaveVersion (st : StorageState)
    (name version system_prompt user_prompt : String)
    (metadata : Option (List (String × String))) (git_commit : Option String) :
    Nat × StorageState :=
  (st.nextId,
   { rows := st.rows ++
      [⟨st.nextId, name, version, system_prompt, user_prompt, metadata,
        git_commit, st.clock⟩],
     nextId := st.nextId + 1, clock := st.clock + 1 })

/-- Embedding of `PromptStorage.delete_version`: look up the id of the
first row with the key, then delete by id (the associated metric rows,
also deleted by the source, carry no claim content and are not
modelled). -/
def storageDeleteVersion (st : StorageState) (name version : String) :
    Bool × StorageState :=
  match storageGetVersion st name version with
  | none => (false, st)
  | some r => (true, { st with rows := st.rows.filter (fun x => x.id ≠ r.id) })

/-- Embedding of `PromptStorage.get_latest_version` (`ORDER BY timestamp
DESC LIMIT 1`); the reachable states have strictly increasing timestamps,
ties keep the earlier row. -/
def storageGetLatestVersion (st : StorageState) (name : String) :
    Option VersionRow :=
  (st.rows.filter (fun r => r.name = name)).foldl
    (fun acc r =>
      match acc with
      | none => some r
      | some a => if a.timestamp < r.timestamp then some r else some a)
    none

/-- Existence check and store of `PromptVersioner.save_version`, after
the version string has been resolved: an existing `(name, version)`
raises `ValueError` unless `overwrite=True`, which deletes the existing
row first; `git_commit` is `None` because the embedding fixes
`enable_git=False`. -/
def pvSaveCore (st : StorageState) (name ver system_prompt user_prompt : String)
    (metadata : Option (List (String × String))) (overwrite : Bool) :
    Except String (Nat × StorageState) :=
  match storageGetVersion st name ver with
  | some _ =>
    if overwrite then
      Except.ok (storageSaveVersion (storageDeleteVersion st name ver).2
        name ver system_prompt user_prompt metadata none)
    else
      Except.error ("Version " ++ ver ++ " already exists for prompt " ++ name)
  | none =>
    Except.ok (storageSaveVersion st name ver system_prompt user_prompt
      metadata none)

/-- Embedding of `PromptVersioner.save_version` with `enable_git=False`:
the version string is the explicit argument if given, else the computed
semantic bump from the latest stored version, else the content hash. -/
def pvSaveVersion (hashFn : String → String → String) (st : StorageState)
    (name system_prompt user_prompt : String) (version : Option String)
    (bump_type : Option VersionBump) (pre_label : Option PreReleaseLabel)
    (pre_number : Option Nat) (metadata : Option (List (String × String)))
    (overwrite : Bool) : Except String (Nat × StorageState) :=
  let ver : String :=
    match version with
    | some v => v
    | none =>
      match bump_type with
      | some b =>
        calcNextVersion ((storageGetLatestVersion st name).map
          (fun r => r.version)) b pre_label pre_number
      | none => hashFn system_prompt user_prompt
  pvSaveCore st name ver system_prompt user_prompt metadata overwrite

/-- Embedding of `PromptVersioner.diff`: both versions are looked up and a
missing one raises `ValueError`; on success the result is the quadruple
of stored texts handed to `DiffEngine.compute_diff` (module `diff.py`,
not under `src/` and not needed by the claims about `diff`). -/
def pvDiff (st : StorageState) (name version1 version2 : String) :
    Except String (String × String × String × String) :=
  match storageGetVersion st name version1 with
  | none =>
    Except.error ("Version " ++ version1 ++ " not found for prompt " ++ name)
  | some v1 =>
    match storageGetVersion st name version2 with
    | none =>
      Except.error ("Version " ++ version2 ++ " not found for prompt " ++ name)
    | some v2 =>
      Except.ok (v1.system_prompt, v1.user_prompt, v2.system_prompt,
        v2.user_prompt)

/-- Embedding of `PromptVersioner.rollback`: a missing target raises
`ValueError`; otherwise a new version is saved with the old content and
`metadata={"rollback_from": to_version}` (version-less and bump-less, so
the hash fallback names the new version). -/
def pvRollback (hashFn : String → String → String) (st : StorageState)
    (name to_version : String) : Except String (Nat × StorageState) :=
  match storageGetVersion st name to_version with
  | none =>
    Except.error ("Version " ++ to_version ++ " not found for prompt " ++ name)
  | some old =>
    pvSaveVersion hashFn st name old.system_prompt old.user_prompt none none
      none none (some [("rollback_from", to_version)]) false

/-- The store invariant: at most one row per `(name, version)` pair. -/
def UniqueKeys (st : StorageState) : Prop :=
  st.rows.Pairwise (fun r s => r.name ≠ s.name ∨ r.version ≠ s.version)

theorem pairwise_key_unique {l : List VersionRow} {name version : String}
    (h : l.Pairwise (fun r s => r.name ≠ s.name ∨ r.version ≠ s.version))
    {a b : VersionRow} (ha : a ∈ l) (hb : b ∈ l)
    (hka : a.name = name ∧ a.version = version)
    (hkb : b.name = name ∧ b.version = version) : a = b := by
  induction l with
  | nil => cases ha
  | cons c t ih =>
    rcases List.pairwise_cons.mp h with ⟨hc, ht⟩
    rcases List.mem_cons.mp ha with rfl | ha2
    · rcases List.mem_cons.mp hb with rfl | hb2
      · rfl
      · rcases hc b hb2 with hn | hv
        · exact absurd (hka.1.trans hkb.1.symm) hn
        · exact absurd (hka.2.trans hkb.2.symm) hv
    · rcases List.mem_cons.mp hb with rfl | hb2
      · rcases hc a ha2 with hn | hv
        · exact absurd (hka.1.trans hkb.1.symm) (fun hh => hn hh.symm)
        · exact absurd (hka.2.trans hkb.2.symm) (fun hh => hv hh.symm)
      · exact ih ht ha2 hb2

theorem storageGetVersion_none_no_key {st : StorageState}
    {name version : String}
    (h : storageGetVersion st name version = none) :
    ∀ r ∈ st.rows, ¬(r.name = name ∧ r.version = version) := by
  intro r hr hk
  have := List.find?_eq_none.mp h r hr
  simp [hk] at this

theorem uniqueKeys_insert (st : StorageState)
    (name v sp up : String) (md : Option (List (String × String)))
    (gc : Option String) (hu : UniqueKeys st)
    (habs : storageGetVersion st name v = none) :
    UniqueKeys (storageSaveVersion st name v sp up md gc).2 := by
  rw [UniqueKeys, storageSaveVersion]
  rw [List.pairwise_append]
  refine ⟨hu, List.pairwise_singleton _ _, ?_⟩
  intro a ha b hb
  simp only [List.mem_singleton] at hb
  subst hb
  have := storageGetVersion_none_no_key habs a ha
  by_cases hn : a.name = name
  · right
    intro hv
    exact this ⟨hn, hv⟩
  · left
    exact hn

theorem uniqueKeys_delete_insert (st : StorageState)
    (name v sp up : String) (md : Option (List (String × String)))
    (gc : Option String) (r : VersionRow) (hu : UniqueKeys st)
    (hfind : storageGetVersion st name v = some r) :
    UniqueKeys (storageSaveVersion
      { st with rows := st.rows.filter (fun x => x.id ≠ r.id) }
      name v sp up md gc).2 := by
  have hrmem : r ∈ st.rows := List.mem_of_find?_eq_some hfind
  have hrkey : r.name = name ∧ r.version = v := by
    have := List.find?_some hfind
    simpa using this
  rw [UniqueKeys, storageSaveVersion]
  rw [List.pairwise_append]
  refine ⟨hu.sublist (List.filter_sublist _), List.pairwise_singleton _ _, ?_⟩
  intro a ha b hb
  simp only [List.mem_singleton] at hb
  subst hb
  have hamem : a ∈ st.rows := List.mem_of_mem_filter ha
  have haid : a.id ≠ r.id := by
    have := List.of_mem_filter ha
    simpa using this
  by_cases hn : a.name = name
  · right
    intro hv
    have : a = r := pairwise_key_unique hu hamem hrmem ⟨hn, hv⟩ hrkey
    exact haid (by rw [this])
  · left
    exact hn

/-- C8: the `(name, version)` key is unique and `save_version` preserves
it: saving over an existing key raises `ValueError` (storing nothing)
when `overwrite=False`, and deletes the existing row before inserting the
new one when `overwrite=True`. -/
theorem pvSaveCore_ok_unique (st : StorageState)
    (name ver sp up : String) (md : Option (List (String × String)))
    (ow : Bool) (hu : UniqueKeys st) :
    ∀ id st2, pvSaveCore st name ver sp up md ow = Except.ok (id, st2) →
      UniqueKeys st2 := by
  intro id st2 hok
  unfold pvSaveCore at hok
  split at hok
  case h_1 x hfind =>
    split at hok
    · cases hok
      have hdel : (storageDeleteVersion st name ver).2 =
          { st with rows := st.rows.filter (fun y => y.id ≠ x.id) } := by
        rw [storageDeleteVersion, hfind]
      rw [hdel]
      exact uniqueKeys_delete_insert st name ver sp up md none x hu hfind
    · cases hok
  case h_2 hfind =>
    cases hok
    exact uniqueKeys_insert st name ver sp up md none hu hfind

theorem c8_unique_overwrite_contract (hashFn : String → String → String)
    (st : StorageState) (name sp up : String) (version : Option String)
    (bump : Option VersionBump) (lab : Option PreReleaseLabel)
    (num : Option Nat) (md : Option (List (String × String))) (ow : Bool)
    (hu : UniqueKeys st) :
    (∀ id st2, pvSaveVersion hashFn st name sp up version bump lab num md ow =
        Except.ok (id, st2) → UniqueKeys st2) ∧
    (∀ name2 v2, UniqueKeys (storageDeleteVersion st name2 v2).2) ∧
    (∀ name2 tv id st2, pvRollback hashFn st name2 tv = Except.ok (id, st2) →
      UniqueKeys st2) ∧
    (∀ v r, version = some v → storageGetVersion st name v = some r →
      (pvSaveVersion hashFn st name sp up (some v) bump lab num md false =
        Except.error
          ("Version " ++ v ++ " already exists for prompt " ++ name)) ∧
      (pvSaveVersion hashFn st name sp up (some v) bump lab num md true =
        Except.ok (st.nextId,
          ⟨st.rows.filter (fun x => x.id ≠ r.id) ++
            [⟨st.nextId, name, v, sp, up, md, none, st.clock⟩],
           st.nextId + 1, st.clock + 1⟩))) := by
  refine ⟨?_, ?_, ?_, ?_⟩
  · intro id st2 hok
    exact pvSaveCore_ok_unique st name _ sp up md ow hu id st2 hok
  · intro name2 v2
    rw [storageDeleteVersion]
    split
    · exact hu
    · exact hu.sublist (List.filter_sublist _)
  · intro name2 tv id st2 hok
    rw [pvRollback] at hok
    split at hok
    · cases hok
    case h_2 old hfound =>
      exact pvSaveCore_ok_unique st name2 _ old.system_prompt old.user_prompt
        _ false hu id st2 hok
  · intro v r hver hfind
    subst hver
    constructor
    · show pvSaveCore st name v sp up md false = _
      simp [pvSaveCore, hfind]
    · show pvSaveCore st name v sp up md true = _
      simp [pvSaveCore, hfind, storageDeleteVersion, storageSaveVersion]

/-- C8 witness: a one-row store; saving the same `(name, version)` with
`overwrite=False` errors, with `overwrite=True` it replaces the row. -/
theorem c8_unique_overwrite_contract_witness :
    pvSaveVersion (fun _ _ => "h")
        ⟨[⟨0, "p", "1.0.0", "s", "u", none, none, 0⟩], 1, 1⟩
        "p" "s2" "u2" (some "1.0.0") none none none none false =
      Except.error "Version 1.0.0 already exists for prompt p" ∧
    pvSaveVersion (fun _ _ => "h")
        ⟨[⟨0, "p", "1.0.0", "s", "u", none, none, 0⟩], 1, 1⟩
        "p" "s2" "u2" (some "1.0.0") none none none none true =
      Except.ok (1, ⟨[⟨1, "p", "1.0.0", "s2", "u2", none, none, 1⟩], 2, 2⟩) := by
  have h := (c8_unique_overwrite_contract (fun _ _ => "h")
    ⟨[⟨0, "p", "1.0.0", "s", "u", none, none, 0⟩], 1, 1⟩
    "p" "s2" "u2" (some "1.0.0") none none none none false
    (by simp [UniqueKeys])).2.2.2 "1.0.0"
    ⟨0, "p", "1.0.0", "s", "u", none, none, 0⟩ rfl (by decide)
  refine ⟨h.1, ?_⟩
  rw [h.2]
  rfl

/-- C9: `diff` raises `ValueError` naming the missing version when either
endpoint is absent and otherwise returns exactly the stored texts of the
two versions; `rollback` raises `ValueError` when the target is absent
and on success appends a fresh version carrying the old version's texts
while leaving every existing row untouched. -/
theorem c9_diff_rollback_contract (hashFn : String → String → String)
    (st : StorageState) (name v1 v2 tv : String) :
    (storageGetVersion st name v1 = none →
      pvDiff st name v1 v2 =
        Except.error ("Version " ++ v1 ++ " not found for prompt " ++ name)) ∧
    (∀ r1, storageGetVersion st name v1 = some r1 →
      storageGetVersion st name v2 = none →
      pvDiff st name v1 v2 =
        Except.error ("Version " ++ v2 ++ " not found for prompt " ++ name)) ∧
    (∀ r1 r2, storageGetVersion st name v1 = some r1 →
      storageGetVersion st name v2 = some r2 →
      pvDiff st name v1 v2 =
        Except.ok (r1.system_prompt, r1.user_prompt, r2.system_prompt,
          r2.user_prompt)) ∧
    (storageGetVersion st name tv = none →
      pvRollback hashFn st name tv =
        Except.error ("Version " ++ tv ++ " not found for prompt " ++ name)) ∧
    (∀ old, storageGetVersion st name tv = some old →
      storageGetVersion st name (hashFn old.system_prompt old.user_prompt) =
        none →
      pvRollback hashFn st name tv = Except.ok (st.nextId,
        ⟨st.rows ++
          [⟨st.nextId, name, hashFn old.system_prompt old.user_prompt,
            old.system_prompt, old.user_prompt,
            some [("rollback_from", tv)], none, st.clock⟩],
         st.nextId + 1, st.clock + 1⟩)) := by
  refine ⟨?_, ?_, ?_, ?_, ?_⟩
  · intro h1
    simp [pvDiff, h1]
  · intro r1 h1 h2
    simp [pvDiff, h1, h2]
  · intro r1 r2 h1 h2
    simp [pvDiff, h1, h2]
  · intro ht
    simp [pvRollback, ht]
  · intro old ht habs
    simp [pvRollback, ht, pvSaveVersion, pvSaveCore, habs, storageSaveVersion]

/-- C9 witness: a one-row store; diffing against a missing version
errors, rolling back to the stored version appends a hash-named copy of
its texts. -/
theorem c9_diff_rollback_contract_witness :
    pvDiff ⟨[⟨0, "p", "1.0.0", "s", "u", none, none, 0⟩], 1, 1⟩
        "p" "9.9.9" "1.0.0" =
      Except.error "Version 9.9.9 not found for prompt p" ∧
    pvRollback (fun _ _ => "h")
        ⟨[⟨0, "p", "1.0.0", "s", "u", none, none, 0⟩], 1, 1⟩ "p" "1.0.0" =
      Except.ok (1,
        ⟨[⟨0, "p", "1.0.0", "s", "u", none, none, 0⟩,
          ⟨1, "p", "h", "s", "u", some [("rollback_from", "1.0.0")], none, 1⟩],
         2, 2⟩) := by
  have h := c9_diff_rollback_contract (fun _ _ => "h")
    ⟨[⟨0, "p", "1.0.0", "s", "u", none, none, 0⟩], 1, 1⟩ "p" "9.9.9" "1.0.0"
    "1.0.0"
  refine ⟨h.1 (by decide), ?_⟩
  rw [h.2.2.2.2 ⟨0, "p", "1.0.0", "s", "u", none, none, 0⟩ (by decide)
    (by decide)]
  rfl

/-!
Part 5 embeds `create_inline_diff` of `src/prompt_versioner/web/app.py`
together with the parts of CPython `difflib.SequenceMatcher` it calls.
The matcher is constructed as `SequenceMatcher(None, old_words,
new_words)`: `isjunk` is `None`, so `bjunk` is empty and the two
junk-extension loops of `find_longest_match` never run (they are
omitted); `autojunk` is on, so when the new side has at least 200 tokens
its popular tokens (count > n // 100 + 1) are dropped from `b2j`.
`str.split()` and the character classes are modelled over ASCII
whitespace.  Python `i-k+1` / `j-k+1` are written `i+1-k` / `j+1-k`,
equal whenever they are non-negative (which the loop invariant
guarantees), and the `j2len.get(j-1, 0)` lookup of Python key `-1` (for
`j = 0`) is written as an explicit 0.  The recursions of
`get_matching_blocks` and the extension loops are given explicit fuel
bounds that the loop guards can never exhaust, keeping every definition
kernel-computable.
-/

/-- Embedding of Python `text.split()`: split on runs of whitespace,
dropping empty tokens. -/
def splitWsAux : List Char → List Char → List String
  | [], acc => if acc = [] then [] else [String.mk acc.reverse]
  | c :: cs, acc =>
    if c.isWhitespace then
      if acc = [] then splitWsAux cs []
      else String.mk acc.reverse :: splitWsAux cs []
    else splitWsAux cs (c :: acc)

/-- Tokenization `old_text.split()` / `new_text.split()`. -/
def splitWs (s : String) : List String :=
  splitWsAux s.data []

/-- Python slice `xs[m:n]` (with `0 ≤ m ≤ n`). -/
def pySlice (xs : List String) (m n : Nat) : List String :=
  (xs.drop m).take (n - m)

/-- Python `' '.join(ws)`. -/
def joinSpace : List String → String
  | [] => ""
  | w :: ws => ws.foldl (fun acc x => acc ++ " " ++ x) w

/-- Ascending list of indices `j` with `b[j] = w`: one `b2j` entry as
built by `SequenceMatcher.__chain_b`. -/
def indicesOf (b : List String) (w : String) : List Nat :=
  (List.range b.length).filter (fun j => b.getD j "" = w)

/-- `b2j.get(w, [])` after autojunk: when `len(b) >= 200`, tokens with
more than `len(b) // 100 + 1` occurrences are removed from `b2j`. -/
def b2jGet (b : List String) (w : String) : List Nat :=
  if 200 ≤ b.length ∧ b.length / 100 + 1 < (indicesOf b w).length then []
  else indicesOf b w

/-- A matching block / running best match `(i, j, size)`. -/
structure Best where
  i : Nat
  j : Nat
  size : Nat
deriving DecidableEq, Repr

/-- `j2len.get(j, 0)`. -/
def j2lenGet (l : List (Nat × Nat)) (j : Nat) : Nat :=
  match l.lookup j with
  | some k => k
  | none => 0

/-- Inner loop of `find_longest_match` over the candidate positions of
row `i` (`continue` below `blo`, `break` from `bhi` on, since the index
lists are ascending). -/
def flmRow (blo bhi i : Nat) (prev : List (Nat × Nat)) :
    List Nat → List (Nat × Nat) → Best → List (Nat × Nat) × Best
  | [], cur, best => (cur, best)
  | j :: js, cur, best =>
    if j < blo then flmRow blo bhi i prev js cur best
    else if bhi ≤ j then (cur, best)
    else
      let k := (if j = 0 then 0 else j2lenGet prev (j - 1)) + 1
      let cur2 := (j, k) :: cur
      let best2 : Best := if best.size < k then ⟨i + 1 - k, j + 1 - k, k⟩ else best
      flmRow blo bhi i prev js cur2 best2

/-- Row loop of `find_longest_match` over `i in range(alo, ahi)`. -/
def flmRows (aw : List String) (bj : String → List Nat) (blo bhi : Nat) :
    List Nat → List (Nat × Nat) → Best → Best
  | [], _, best => best
  | i :: rest, prev, best =>
    let rb := flmRow blo bhi i prev (bj (aw.getD i "")) [] best
    flmRows aw bj blo bhi rest rb.1 rb.2

/-- Left extension loop of `find_longest_match` (the junk variant never
runs since `bjunk` is empty); the fuel starts at `besti`, which the
guard `alo < besti` can never exhaust. -/
def extendLeftF (aw bw : List String) (alo blo : Nat) :
    Nat → Nat → Nat → Nat → Best
  | 0, besti, bestj, k => ⟨besti, bestj, k⟩
  | fuel + 1, besti, bestj, k =>
    if alo < besti ∧ blo < bestj ∧
        aw.getD (besti - 1) "" = bw.getD (bestj - 1) "" then
      extendLeftF aw bw alo blo fuel (besti - 1) (bestj - 1) (k + 1)
    else ⟨besti, bestj, k⟩

/-- Right extension loop of `find_longest_match`; the fuel starts at
`ahi - (besti + k)`, which the guard `besti + k < ahi` can never
exhaust. -/
def extendRightF (aw bw : List String) (ahi bhi besti bestj : Nat) :
    Nat → Nat → Nat
  | 0, k => k
  | fuel + 1, k =>
    if besti + k < ahi ∧ bestj + k < bhi ∧
        aw.getD (besti + k) "" = bw.getD (bestj + k) "" then
      extendRightF aw bw ahi bhi besti bestj fuel (k + 1)
    else k

/-- Embedding of `SequenceMatcher.find_longest_match` on the window
`a[alo:ahi]`, `b[blo:bhi]`. -/
def findLongestMatch (aw bw : List String) (alo ahi blo bhi : Nat) : Best :=
  let b0 := flmRows aw (b2jGet bw) blo bhi (List.range' alo (ahi - alo)) []
    ⟨alo, blo, 0⟩
  let b1 := extendLeftF aw bw alo blo b0.i b0.i b0.j b0.size
  ⟨b1.i, b1.j, extendRightF aw bw ahi bhi b1.i b1.j (ahi - (b1.i + b1.size))
    b1.size⟩

/-- Divide-and-conquer of `SequenceMatcher.get_matching_blocks`, written
recursively in order.  (The source keeps a work queue and sorts the
collected blocks; the blocks of disjoint sub-rectangles never cross, so
sorting by `(i, j)` returns exactly this in-order traversal.)  The fuel
starts at `ahi - alo`, which bounds the recursion depth. -/
def matchingBlocksF (aw bw : List String) :
    Nat → Nat → Nat → Nat → Nat → List Best
  | 0, _, _, _, _ => []
  | fuel + 1, alo, ahi, blo, bhi =>
    let m := findLongestMatch aw bw alo ahi blo bhi
    if m.size = 0 then []
    else
      matchingBlocksF aw bw fuel alo m.i blo m.j ++
        m :: matchingBlocksF aw bw fuel (m.i + m.size) ahi (m.j + m.size) bhi

/-- Adjacent-block merge of `get_matching_blocks` (accumulator
`(i1, j1, k1)` starts at `(0, 0, 0)`). -/
def mergeBlocks : Nat → Nat → Nat → List Best → List Best
  | i1, j1, k1, [] => if k1 ≠ 0 then [⟨i1, j1, k1⟩] else []
  | i1, j1, k1, b :: rest =>
    if i1 + k1 = b.i ∧ j1 + k1 = b.j then mergeBlocks i1 j1 (k1 + b.size) rest
    else if k1 ≠ 0 then ⟨i1, j1, k1⟩ :: mergeBlocks b.i b.j b.size rest
    else mergeBlocks b.i b.j b.size rest

/-- Embedding of `SequenceMatcher.get_matching_blocks`: merged blocks
plus the `(la, lb, 0)` sentinel. -/
def getMatchingBlocks (aw bw : List String) : List Best :=
  mergeBlocks 0 0 0
    (matchingBlocksF aw bw aw.length 0 aw.length 0 bw.length) ++
    [⟨aw.length, bw.length, 0⟩]

/-- Opcode tags of `SequenceMatcher.get_opcodes`. -/
inductive OpTag
  | equal
  | delete
  | insert
  | replace
deriving DecidableEq, Repr

/-- One opcode `(tag, i1, i2, j1, j2)`. -/
structure Opcode where
  tag : OpTag
  i1 : Nat
  i2 : Nat
  j1 : Nat
  j2 : Nat
deriving DecidableEq, Repr

/-- Loop body of `get_opcodes` over the matching blocks, carrying the
current position `(i, j)`. -/
def opcodesLoop : Nat → Nat → List Best → List Opcode
  | _, _, [] => []
  | i, j, b :: rest =>
    (if i < b.i ∧ j < b.j then [⟨OpTag.replace, i, b.i, j, b.j⟩]
     else if i < b.i then [⟨OpTag.delete, i, b.i, j, b.j⟩]
     else if j < b.j then [⟨OpTag.insert, i, b.i, j, b.j⟩]
     else []) ++
    (if b.size ≠ 0 then
      [⟨OpTag.equal, b.i, b.i + b.size, b.j, b.j + b.size⟩]
     else []) ++
    opcodesLoop (b.i + b.size) (b.j + b.size) rest

/-- Embedding of `SequenceMatcher.get_opcodes`. -/
def getOpcodes (aw bw : List String) : List Opcode :=
  opcodesLoop 0 0 (getMatchingBlocks aw bw)

/-- Segment tags of `create_inline_diff`. -/
inductive SegTag
  | unchanged
  | added
  | removed
deriving DecidableEq, Repr

/-- One diff segment (`{'type': ..., 'text': ...}`). -/
structure Segment where
  tag : SegTag
  text : String
deriving DecidableEq, Repr

/-- Segment(s) appended for one opcode by the `create_inline_diff`
loop. -/
def opSegments (old_words new_words : List String) (op : Opcode) :
    List Segment :=
  match op.tag with
  | .equal => [⟨SegTag.unchanged, joinSpace (pySlice new_words op.j1 op.j2)⟩]
  | .delete => [⟨SegTag.removed, joinSpace (pySlice old_words op.i1 op.i2)⟩]
  | .insert => [⟨SegTag.added, joinSpace (pySlice new_words op.j1 op.j2)⟩]
  | .replace =>
    [⟨SegTag.removed, joinSpace (pySlice old_words op.i1 op.i2)⟩,
     ⟨SegTag.added, joinSpace (pySlice new_words op.j1 op.j2)⟩]

/-- Embedding of `create_inline_diff` (`web/app.py`). -/
def create_inline_diff (old_text new_text : String) : List Segment :=
  let old_words := splitWs old_text
  let new_words := splitWs new_text
  (getOpcodes old_words new_words).flatMap (opSegments old_words new_words)

/-- The new-side segment texts of a diff: the `unchanged` and `added`
segments in order. -/
def newSideTexts (segs : List Segment) : List String :=
  (segs.filter (fun s => s.tag ≠ SegTag.removed)).map (fun s => s.text)

/-- Invariant of the `j2len` dict after processing the rows up to (but
excluding) `iRow`: every recorded run has positive length, fits in the
window, and is no longer than the number of processed rows or available
columns. -/
def RowBound (alo blo bhi iRow : Nat) (l : List (Nat × Nat)) : Prop :=
  ∀ p ∈ l, blo ≤ p.1 ∧ p.1 < bhi ∧ 1 ≤ p.2 ∧ p.2 + alo ≤ iRow ∧
    p.2 + blo ≤ p.1 + 1

/-- Invariant of the running best match: it starts at the window origin
while empty, and fits inside the window once non-empty. -/
def BestInvP (alo ahi blo bhi : Nat) (b : Best) : Prop :=
  alo ≤ b.i ∧ blo ≤ b.j ∧ (b.size = 0 → b.i = alo ∧ b.j = blo) ∧
  (b.size ≠ 0 → b.i + b.size ≤ ahi ∧ b.j + b.size ≤ bhi)

theorem bestInvP_mk (alo ahi blo bhi i j k : Nat) (h1 : alo ≤ i)
    (h2 : blo ≤ j) (h3 : k = 0 → i = alo ∧ j = blo)
    (h4 : k ≠ 0 → i + k ≤ ahi ∧ j + k ≤ bhi) :
    BestInvP alo ahi blo bhi ⟨i, j, k⟩ :=
  ⟨h1, h2, h3, h4⟩

theorem lookup_mem {l : List (Nat × Nat)} {j k : Nat}
    (h : l.lookup j = some k) : (j, k) ∈ l := by
  induction l with
  | nil => cases h
  | cons p t ih =>
    rcases p with ⟨a, v⟩
    by_cases hj : j = a
    · subst hj
      simp [List.lookup] at h
      simp [h]
    · have hbeq : (j == a) = false := by simp [hj]
      simp only [List.lookup, hbeq] at h
      simp [ih h]

theorem j2lenGet_cases (l : List (Nat × Nat)) (j : Nat) :
    j2lenGet l j = 0 ∨ (j, j2lenGet l j) ∈ l := by
  rw [j2lenGet]
  rcases h : l.lookup j with _ | k
  · exact Or.inl rfl
  · exact Or.inr (lookup_mem h)

theorem flmRow_inv (alo ahi blo bhi i : Nat) (prev : List (Nat × Nat))
    (hprev : RowBound alo blo bhi i prev) (hi1 : alo ≤ i) (hi2 : i < ahi) :
    ∀ (js : List Nat) (cur : List (Nat × Nat)) (best : Best),
      RowBound alo blo bhi (i + 1) cur → BestInvP alo ahi blo bhi best →
      RowBound alo blo bhi (i + 1) (flmRow blo bhi i prev js cur best).1 ∧
      BestInvP alo ahi blo bhi (flmRow blo bhi i prev js cur best).2 := by
  intro js
  induction js with
  | nil => intro cur best hc hb; exact ⟨hc, hb⟩
  | cons j rest ih =>
    intro cur best hc hb
    rw [flmRow]
    by_cases h1 : j < blo
    · rw [if_pos h1]
      exact ih cur best hc hb
    · rw [if_neg h1]
      by_cases h2 : bhi ≤ j
      · rw [if_pos h2]
        exact ⟨hc, hb⟩
      · rw [if_neg h2]
        have hjb : blo ≤ j := Nat.le_of_not_lt h1
        have hjh : j < bhi := Nat.lt_of_not_le h2
        have hk : ((if j = 0 then 0 else j2lenGet prev (j - 1)) + alo ≤ i) ∧
            ((if j = 0 then 0 else j2lenGet prev (j - 1)) + blo ≤ j) := by
          by_cases hj0 : j = 0
          · rw [if_pos hj0]
            omega
          · rw [if_neg hj0]
            rcases j2lenGet_cases prev (j - 1) with hz | hmem
            · rw [hz]
              omega
            · have := hprev _ hmem
              simp only at this
              omega
        refine ih _ _ ?_ ?_
        · intro p hp
          rcases List.mem_cons.mp hp with rfl | hp2
          · exact ⟨hjb, hjh, by omega, by omega, by omega⟩
          · exact hc p hp2
        · by_cases hlt : best.size <
              (if j = 0 then 0 else j2lenGet prev (j - 1)) + 1
          · rw [if_pos hlt]
            exact bestInvP_mk _ _ _ _ _ _ _ (by omega) (by omega) (by omega)
              (fun _ => ⟨by omega, by omega⟩)
          · rw [if_neg hlt]
            exact hb

theorem flmRows_inv (aw : List String) (bj : String → List Nat)
    (alo ahi blo bhi : Nat) :
    ∀ (len start : Nat) (prev : List (Nat × Nat)) (best : Best),
      alo ≤ start → start + len ≤ ahi →
      RowBound alo blo bhi start prev → BestInvP alo ahi blo bhi best →
      BestInvP alo ahi blo bhi
        (flmRows aw bj blo bhi (List.range' start len) prev best) := by
  intro len
  induction len with
  | zero =>
    intro start prev best _ _ _ hb
    simpa [flmRows] using hb
  | succ n ih =>
    intro start prev best h1 h2 hp hb
    rw [List.range'_succ, flmRows]
    have hrow := flmRow_inv alo ahi blo bhi start prev hp h1 (by omega)
      (bj (aw.getD start "")) [] best (by intro p hp2; cases hp2) hb
    exact ih (start + 1) _ _ (by omega) (by omega)
      (fun p hp2 => by have := hrow.1 p hp2; omega) hrow.2

theorem extendLeftF_inv (aw bw : List String) (alo ahi blo bhi : Nat) :
    ∀ (fuel besti bestj k : Nat),
      BestInvP alo ahi blo bhi ⟨besti, bestj, k⟩ →
      BestInvP alo ahi blo bhi (extendLeftF aw bw alo blo fuel besti bestj k) := by
  intro fuel
  induction fuel with
  | zero => intro besti bestj k hb; exact hb
  | succ n ih =>
    intro besti bestj k hb
    obtain ⟨hbi, hbj, hz, hnz⟩ := hb
    simp only at hbi hbj hz hnz
    rw [extendLeftF]
    split
    case isTrue h =>
      obtain ⟨ha1, ha2, -⟩ := h
      have hk0 : k ≠ 0 := by
        intro hk
        obtain ⟨he, -⟩ := hz hk
        omega
      obtain ⟨hr1, hr2⟩ := hnz hk0
      exact ih _ _ _ (bestInvP_mk _ _ _ _ _ _ _ (by omega) (by omega)
        (by omega) (fun _ => ⟨by omega, by omega⟩))
    case isFalse h => exact ⟨hbi, hbj, hz, hnz⟩

theorem extendRightF_inv (aw bw : List String)
    (alo ahi blo bhi besti bestj : Nat) :
    ∀ (fuel k : Nat),
      BestInvP alo ahi blo bhi ⟨besti, bestj, k⟩ →
      BestInvP alo ahi blo bhi
        ⟨besti, bestj, extendRightF aw bw ahi bhi besti bestj fuel k⟩ := by
  intro fuel
  induction fuel with
  | zero => intro k hb; exact hb
  | succ n ih =>
    intro k hb
    obtain ⟨hbi, hbj, hz, hnz⟩ := hb
    simp only at hbi hbj hz hnz
    rw [extendRightF]
    split
    case isTrue h =>
      obtain ⟨ha1, ha2, -⟩ := h
      exact ih _ (bestInvP_mk _ _ _ _ _ _ _ hbi hbj (by omega)
        (fun _ => ⟨by omega, by omega⟩))
    case isFalse h => exact ⟨hbi, hbj, hz, hnz⟩

theorem flm_bounds (aw bw : List String) (alo ahi blo bhi : Nat) :
    BestInvP alo ahi blo bhi (findLongestMatch aw bw alo ahi blo bhi) := by
  have h0 : BestInvP alo ahi blo bhi ⟨alo, blo, 0⟩ :=
    ⟨le_refl _, le_refl _, fun _ => ⟨rfl, rfl⟩, fun h => absurd rfl h⟩
  have hrows : BestInvP alo ahi blo bhi (flmRows aw (b2jGet bw) blo bhi
      (List.range' alo (ahi - alo)) [] ⟨alo, blo, 0⟩) := by
    by_cases hle : alo ≤ ahi
    · exact flmRows_inv aw (b2jGet bw) alo ahi blo bhi (ahi - alo) alo []
        ⟨alo, blo, 0⟩ (le_refl _) (by omega) (by intro p hp; cases hp) h0
    · have hz : ahi - alo = 0 := by omega
      rw [hz]
      simpa [flmRows, List.range'] using h0
  exact extendRightF_inv aw bw alo ahi blo bhi _ _ _ _
    (extendLeftF_inv aw bw alo ahi blo bhi _ _ _ _ hrows)

/-- The blocks form an in-order, non-overlapping chain inside
`[i0, ihi] × [j0, jhi]`. -/
def chainB (ihi jhi : Nat) : Nat → Nat → List Best → Prop
  | _, _, [] => True
  | i0, j0, b :: rest =>
    i0 ≤ b.i ∧ j0 ≤ b.j ∧ b.i + b.size ≤ ihi ∧ b.j + b.size ≤ jhi ∧
    chainB ihi jhi (b.i + b.size) (b.j + b.size) rest

theorem chainB_mono {ihi jhi i0 j0 i02 j02 : Nat} {l : List Best}
    (h1 : i02 ≤ i0) (h2 : j02 ≤ j0) (h : chainB ihi jhi i0 j0 l) :
    chainB ihi jhi i02 j02 l := by
  cases l with
  | nil => trivial
  | cons b rest =>
    obtain ⟨a1, a2, a3, a4, a5⟩ := h
    exact ⟨le_trans h1 a1, le_trans h2 a2, a3, a4, a5⟩

theorem chainB_append {ihi jhi : Nat} :
    ∀ (xs ys : List Best) (i0 j0 m1 m2 : Nat),
      chainB m1 m2 i0 j0 xs → chainB ihi jhi m1 m2 ys →
      i0 ≤ m1 → j0 ≤ m2 → m1 ≤ ihi → m2 ≤ jhi →
      chainB ihi jhi i0 j0 (xs ++ ys) := by
  intro xs
  induction xs with
  | nil =>
    intro ys i0 j0 m1 m2 hx hy h1 h2 h3 h4
    simpa using chainB_mono h1 h2 hy
  | cons b rest ih =>
    intro ys i0 j0 m1 m2 hx hy h1 h2 h3 h4
    obtain ⟨a1, a2, a3, a4, a5⟩ := hx
    exact ⟨a1, a2, le_trans a3 h3, le_trans a4 h4,
      ih ys _ _ m1 m2 a5 hy a3 a4 h3 h4⟩

theorem matchingBlocksF_chain (aw bw : List String) :
    ∀ (fuel alo ahi blo bhi : Nat),
      chainB ahi bhi alo blo (matchingBlocksF aw bw fuel alo ahi blo bhi) := by
  intro fuel
  induction fuel with
  | zero => intro alo ahi blo bhi; trivial
  | succ n ih =>
    intro alo ahi blo bhi
    rw [matchingBlocksF]
    split
    · trivial
    case isFalse hsz =>
      obtain ⟨hbi, hbj, hz, hnz⟩ := flm_bounds aw bw alo ahi blo bhi
      obtain ⟨hr1, hr2⟩ := hnz hsz
      refine chainB_append _ _ alo blo
        (findLongestMatch aw bw alo ahi blo bhi).i
        (findLongestMatch aw bw alo ahi blo bhi).j
        (ih alo _ blo _) ⟨le_refl _, le_refl _, hr1, hr2, ih _ ahi _ bhi⟩
        hbi hbj (by omega) (by omega)

theorem mergeBlocks_chain (ihi jhi : Nat) :
    ∀ (bs : List Best) (i1 j1 k1 i0 j0 : Nat),
      chainB ihi jhi (i1 + k1) (j1 + k1) bs → i0 ≤ i1 → j0 ≤ j1 →
      i1 + k1 ≤ ihi → j1 + k1 ≤ jhi →
      chainB ihi jhi i0 j0 (mergeBlocks i1 j1 k1 bs) := by
  intro bs
  induction bs with
  | nil =>
    intro i1 j1 k1 i0 j0 hc h1 h2 h3 h4
    rw [mergeBlocks]
    split
    · exact ⟨h1, h2, h3, h4, trivial⟩
    · trivial
  | cons b rest ih =>
    intro i1 j1 k1 i0 j0 hc h1 h2 h3 h4
    obtain ⟨a1, a2, a3, a4, a5⟩ := hc
    rw [mergeBlocks]
    split
    case isTrue hadj =>
      refine ih i1 j1 (k1 + b.size) i0 j0 ?_ h1 h2 ?_ ?_
      · have hi : i1 + (k1 + b.size) = b.i + b.size := by omega
        have hj : j1 + (k1 + b.size) = b.j + b.size := by omega
        rw [hi, hj]
        exact a5
      · omega
      · omega
    case isFalse hadj =>
      split
      case isTrue hk =>
        exact ⟨h1, h2, h3, h4,
          ih b.i b.j b.size (i1 + k1) (j1 + k1) a5 a1 a2 a3 a4⟩
      case isFalse hk =>
        have hk0 : k1 = 0 := by omega
        exact ih b.i b.j b.size i0 j0 a5 (by omega) (by omega) a3 a4

theorem getMatchingBlocks_chain (aw bw : List String) :
    chainB aw.length bw.length 0 0 (getMatchingBlocks aw bw) := by
  rw [getMatchingBlocks]
  have hblocks := matchingBlocksF_chain aw bw aw.length 0 aw.length 0
    bw.length
  have hmerged : chainB aw.length bw.length 0 0 (mergeBlocks 0 0 0
      (matchingBlocksF aw bw aw.length 0 aw.length 0 bw.length)) := by
    refine mergeBlocks_chain _ _ _ 0 0 0 0 0 ?_ (le_refl _) (le_refl _)
      (Nat.zero_le _) (Nat.zero_le _)
    simpa using hblocks
  have hsent : chainB aw.length bw.length aw.length bw.length
      [⟨aw.length, bw.length, 0⟩] :=
    ⟨le_refl _, le_refl _, Nat.le_of_eq (Nat.add_zero _),
      Nat.le_of_eq (Nat.add_zero _), trivial⟩
  exact chainB_append _ _ 0 0 aw.length bw.length hmerged hsent
    (Nat.zero_le _) (Nat.zero_le _) (le_refl _) (le_refl _)

/-- Final new-side position after a block list. -/
def endJ (j0 : Nat) (bs : List Best) : Nat :=
  bs.foldl (fun _ b => b.j + b.size) j0

/-- Final old-side position after a block list. -/
def endI (i0 : Nat) (bs : List Best) : Nat :=
  bs.foldl (fun _ b => b.i + b.size) i0

theorem endJ_cons (j0 : Nat) (b : Best) (rest : List Best) :
    endJ j0 (b :: rest) = endJ (b.j + b.size) rest := rfl

theorem endI_cons (i0 : Nat) (b : Best) (rest : List Best) :
    endI i0 (b :: rest) = endI (b.i + b.size) rest := rfl

theorem chainB_le_end {ihi jhi : Nat} :
    ∀ (bs : List Best) (i0 j0 : Nat), chainB ihi jhi i0 j0 bs →
      i0 ≤ endI i0 bs ∧ j0 ≤ endJ j0 bs := by
  intro bs
  induction bs with
  | nil => intro i0 j0 _; exact ⟨le_refl _, le_refl _⟩
  | cons b rest ih =>
    intro i0 j0 hc
    obtain ⟨a1, a2, a3, a4, a5⟩ := hc
    obtain ⟨e1, e2⟩ := ih _ _ a5
    rw [endI_cons, endJ_cons]
    constructor
    · omega
    · omega

theorem pySlice_self (l : List String) (x : Nat) : pySlice l x x = [] := by
  simp [pySlice]

theorem pySlice_glue (l : List String) (x y z : Nat) (h1 : x ≤ y)
    (h2 : y ≤ z) : pySlice l x y ++ pySlice l y z = pySlice l x z := by
  rw [pySlice, pySlice, pySlice]
  have hd : l.drop y = (l.drop x).drop (y - x) := by
    rw [List.drop_drop]
    congr 1
    omega
  have hn : z - x = (y - x) + (z - y) := by omega
  rw [hd, hn, List.take_add]

theorem pySlice_ne_nil (l : List String) (x y : Nat) (h1 : x < y)
    (h2 : y ≤ l.length) : pySlice l x y ≠ [] := by
  have hlen : (pySlice l x y).length = y - x := by
    simp only [pySlice, List.length_take, List.length_drop]
    omega
  intro hc
  rw [hc] at hlen
  simp at hlen
  omega

/-- New-side word lists contributed by a list of opcodes (the `delete`
opcodes contribute nothing). -/
def newWordss (bw : List String) (ops : List Opcode) : List (List String) :=
  ops.flatMap (fun op =>
    if op.tag = OpTag.delete then [] else [pySlice bw op.j1 op.j2])

theorem opcodes_tile (aw bw : List String) :
    ∀ (bs : List Best) (i0 j0 : Nat),
      chainB aw.length bw.length i0 j0 bs →
      ((opcodesLoop i0 j0 bs).flatMap (fun op => pySlice bw op.j1 op.j2) =
          pySlice bw j0 (endJ j0 bs)) ∧
      ((opcodesLoop i0 j0 bs).flatMap (fun op => pySlice aw op.i1 op.i2) =
          pySlice aw i0 (endI i0 bs)) ∧
      ((newWordss bw (opcodesLoop i0 j0 bs)).flatten =
          pySlice bw j0 (endJ j0 bs)) ∧
      (∀ ws ∈ newWordss bw (opcodesLoop i0 j0 bs), ws ≠ []) := by
  intro bs
  induction bs with
  | nil =>
    intro i0 j0 _
    refine ⟨?_, ?_, ?_, ?_⟩ <;>
      simp [opcodesLoop, endI, endJ, newWordss, pySlice_self]
  | cons b rest ih =>
    intro i0 j0 hc
    obtain ⟨a1, a2, a3, a4, a5⟩ := hc
    obtain ⟨ihJ, ihI, ihF, ihNE⟩ := ih _ _ a5
    have hEJ : b.j + b.size ≤ endJ (b.j + b.size) rest :=
      (chainB_le_end _ _ _ a5).2
    have hEI : b.i + b.size ≤ endI (b.i + b.size) rest :=
      (chainB_le_end _ _ _ a5).1
    have hbjlb : b.j ≤ bw.length := by omega
    have hbila : b.i ≤ aw.length := by omega
    rw [opcodesLoop, endJ_cons, endI_cons]
    have hheadJ : (if i0 < b.i ∧ j0 < b.j then
          [(⟨OpTag.replace, i0, b.i, j0, b.j⟩ : Opcode)]
        else if i0 < b.i then [⟨OpTag.delete, i0, b.i, j0, b.j⟩]
        else if j0 < b.j then [⟨OpTag.insert, i0, b.i, j0, b.j⟩]
        else []).flatMap (fun op => pySlice bw op.j1 op.j2) =
        pySlice bw j0 b.j := by
      split_ifs with h1 h2 h3
      · simp
      · simp
      · simp
      · have hj : j0 = b.j := by omega
        simp [hj, pySlice_self]
    have hheadI : (if i0 < b.i ∧ j0 < b.j then
          [(⟨OpTag.replace, i0, b.i, j0, b.j⟩ : Opcode)]
        else if i0 < b.i then [⟨OpTag.delete, i0, b.i, j0, b.j⟩]
        else if j0 < b.j then [⟨OpTag.insert, i0, b.i, j0, b.j⟩]
        else []).flatMap (fun op => pySlice aw op.i1 op.i2) =
        pySlice aw i0 b.i := by
      split_ifs with h1 h2 h3
      · simp
      · simp
      · simp
      · have hi : i0 = b.i := by omega
        simp [hi, pySlice_self]
    have hheadF : (newWordss bw (if i0 < b.i ∧ j0 < b.j then
          [(⟨OpTag.replace, i0, b.i, j0, b.j⟩ : Opcode)]
        else if i0 < b.i then [⟨OpTag.delete, i0, b.i, j0, b.j⟩]
        else if j0 < b.j then [⟨OpTag.insert, i0, b.i, j0, b.j⟩]
        else [])).flatten = pySlice bw j0 b.j := by
      split_ifs with h1 h2 h3
      · simp [newWordss]
      · have hj : j0 = b.j := by omega
        simp [newWordss, hj, pySlice_self]
      · simp [newWordss]
      · have hj : j0 = b.j := by omega
        simp [newWordss, hj, pySlice_self]
    have hheadNE : ∀ ws ∈ newWordss bw (if i0 < b.i ∧ j0 < b.j then
          [(⟨OpTag.replace, i0, b.i, j0, b.j⟩ : Opcode)]
        else if i0 < b.i then [⟨OpTag.delete, i0, b.i, j0, b.j⟩]
        else if j0 < b.j then [⟨OpTag.insert, i0, b.i, j0, b.j⟩]
        else []), ws ≠ [] := by
      split_ifs with h1 h2 h3
      · intro ws hws
        simp [newWordss] at hws
        rw [hws]
        exact pySlice_ne_nil bw j0 b.j h1.2 hbjlb
      · intro ws hws
        simp [newWordss] at hws
      · intro ws hws
        simp [newWordss] at hws
        rw [hws]
        exact pySlice_ne_nil bw j0 b.j h3 hbjlb
      · intro ws hws
        simp [newWordss] at hws
    have heqJ : (if b.size ≠ 0 then
          [(⟨OpTag.equal, b.i, b.i + b.size, b.j, b.j + b.size⟩ : Opcode)]
        else []).flatMap (fun op => pySlice bw op.j1 op.j2) =
        pySlice bw b.j (b.j + b.size) := by
      split_ifs with h1
      · simp
      · have hz : b.size = 0 := by omega
        simp [hz, pySlice_self]
    have heqI : (if b.size ≠ 0 then
          [(⟨OpTag.equal, b.i, b.i + b.size, b.j, b.j + b.size⟩ : Opcode)]
        else []).flatMap (fun op => pySlice aw op.i1 op.i2) =
        pySlice aw b.i (b.i + b.size) := by
      split_ifs with h1
      · simp
      · have hz : b.size = 0 := by omega
        simp [hz, pySlice_self]
    have heqF : (newWordss bw (if b.size ≠ 0 then
          [(⟨OpTag.equal, b.i, b.i + b.size, b.j, b.j + b.size⟩ : Opcode)]
        else [])).flatten = pySlice bw b.j (b.j + b.size) := by
      split_ifs with h1
      · simp [newWordss]
      · have hz : b.size = 0 := by omega
        simp [newWordss, hz, pySlice_self]
    have heqNE : ∀ ws ∈ newWordss bw (if b.size ≠ 0 then
          [(⟨OpTag.equal, b.i, b.i + b.size, b.j, b.j + b.size⟩ : Opcode)]
        else []), ws ≠ [] := by
      split_ifs with h1
      · intro ws hws
        simp [newWordss] at hws
        rw [hws]
        exact pySlice_ne_nil bw b.j (b.j + b.size) (by omega) a4
      · intro ws hws
        simp [newWordss] at hws
    refine ⟨?_, ?_, ?_, ?_⟩
    · rw [List.flatMap_append, List.flatMap_append, hheadJ, heqJ, ihJ,
        List.append_assoc,
        pySlice_glue bw b.j (b.j + b.size) _ (by omega) hEJ,
        pySlice_glue bw j0 b.j _ a2 (by omega)]
    · rw [List.flatMap_append, List.flatMap_append, hheadI, heqI, ihI,
        List.append_assoc,
        pySlice_glue aw b.i (b.i + b.size) _ (by omega) hEI,
        pySlice_glue aw i0 b.i _ a1 (by omega)]
    · rw [newWordss, List.flatMap_append, List.flatMap_append]
      rw [show ∀ xs ys zs : List (List String),
        (xs ++ ys ++ zs).flatten = xs.flatten ++ ys.flatten ++ zs.flatten
        from fun xs ys zs => by simp]
      rw [← newWordss, ← newWordss, ← newWordss, hheadF, heqF, ihF,
        List.append_assoc,
        pySlice_glue bw b.j (b.j + b.size) _ (by omega) hEJ,
        pySlice_glue bw j0 b.j _ a2 (by omega)]
    · intro ws hws
      rw [newWordss, List.flatMap_append, List.flatMap_append] at hws
      rcases List.mem_append.mp hws with hws2 | hws3
      · rcases List.mem_append.mp hws2 with hws4 | hws5
        · exact hheadNE ws hws4
        · exact heqNE ws hws5
      · exact ihNE ws hws3

theorem getOpcodes_tile (aw bw : List String) :
    ((getOpcodes aw bw).flatMap (fun op => pySlice bw op.j1 op.j2) = bw) ∧
    ((getOpcodes aw bw).flatMap (fun op => pySlice aw op.i1 op.i2) = aw) ∧
    ((newWordss bw (getOpcodes aw bw)).flatten = bw) ∧
    (∀ ws ∈ newWordss bw (getOpcodes aw bw), ws ≠ []) := by
  obtain ⟨hJ, hI, hF, hNE⟩ :=
    opcodes_tile aw bw _ 0 0 (getMatchingBlocks_chain aw bw)
  have hendJ : endJ 0 (getMatchingBlocks aw bw) = bw.length := by
    rw [getMatchingBlocks, endJ, List.foldl_append]
    simp
  have hendI : endI 0 (getMatchingBlocks aw bw) = aw.length := by
    rw [getMatchingBlocks, endI, List.foldl_append]
    simp
  have hsliceJ : pySlice bw 0 bw.length = bw := by
    simp [pySlice]
  have hsliceI : pySlice aw 0 aw.length = aw := by
    simp [pySlice]
  rw [hendJ, hsliceJ] at hJ hF
  rw [hendI, hsliceI] at hI
  exact ⟨hJ, hI, hF, hNE⟩

/-- Suffix of a space-join: everything after the first word. -/
def tailJoin (ws : List String) : String :=
  ws.foldr (fun x r => " " ++ x ++ r) ""

theorem tailJoin_cons (x : String) (l : List String) :
    tailJoin (x :: l) = " " ++ x ++ tailJoin l := rfl

theorem joinSpace_foldl (ws : List String) :
    ∀ a : String, ws.foldl (fun acc x => acc ++ " " ++ x) a =
      a ++ tailJoin ws := by
  induction ws with
  | nil => intro a; simp [tailJoin]
  | cons x t ih =>
    intro a
    rw [List.foldl_cons, ih, tailJoin_cons]
    simp [String.append_assoc]

theorem joinSpace_cons (w : String) (ws : List String) :
    joinSpace (w :: ws) = w ++ tailJoin ws :=
  joinSpace_foldl ws w

theorem tailJoin_append (xs ys : List String) :
    tailJoin (xs ++ ys) = tailJoin xs ++ tailJoin ys := by
  induction xs with
  | nil => simp [tailJoin]
  | cons x t ih =>
    rw [List.cons_append, tailJoin_cons, tailJoin_cons, ih]
    simp [String.append_assoc]

theorem joinSpace_append (xs ys : List String) (hx : xs ≠ [])
    (hy : ys ≠ []) :
    joinSpace (xs ++ ys) = joinSpace xs ++ " " ++ joinSpace ys := by
  rcases xs with _ | ⟨x, xs2⟩
  · exact absurd rfl hx
  rcases ys with _ | ⟨y, ys2⟩
  · exact absurd rfl hy
  rw [List.cons_append, joinSpace_cons, joinSpace_cons, joinSpace_cons,
    tailJoin_append, tailJoin_cons]
  simp [String.append_assoc]

theorem flatten_ne_nil {wss : List (List String)}
    (h : ∀ ws ∈ wss, ws ≠ []) (hne : wss ≠ []) : wss.flatten ≠ [] := by
  rcases wss with _ | ⟨w, rest⟩
  · exact absurd rfl hne
  have hw := h w (by simp)
  intro hc
  rw [List.flatten_cons] at hc
  exact hw (List.append_eq_nil.mp hc).1

theorem joinSpace_singleton (a : String) : joinSpace [a] = a := rfl

theorem joinSpace_flatten :
    ∀ (wss : List (List String)), (∀ ws ∈ wss, ws ≠ []) →
      joinSpace (wss.map joinSpace) = joinSpace wss.flatten := by
  intro wss
  induction wss with
  | nil => intro _; rfl
  | cons w rest ih =>
    intro h
    have hw : w ≠ [] := h w (by simp)
    by_cases hrne : rest = []
    · subst hrne
      simp [joinSpace_singleton]
    · have hfl : rest.flatten ≠ [] :=
        flatten_ne_nil (fun ws hws => h ws (by simp [hws])) hrne
      have hmapne : rest.map joinSpace ≠ [] := by
        simpa using hrne
      rw [List.map_cons, List.flatten_cons,
        show (joinSpace w :: rest.map joinSpace) =
          [joinSpace w] ++ rest.map joinSpace from rfl,
        joinSpace_append _ _ (by simp) hmapne,
        ih (fun ws hws => h ws (by simp [hws])), joinSpace_singleton,
        joinSpace_append w rest.flatten hw hfl]

theorem newSideTexts_eq (aw bw : List String) :
    ∀ ops : List Opcode,
      newSideTexts (ops.flatMap (opSegments aw bw)) =
        (newWordss bw ops).map joinSpace := by
  intro ops
  induction ops with
  | nil => rfl
  | cons op rest ih =>
    have hsplit : newSideTexts (opSegments aw bw op ++
        rest.flatMap (opSegments aw bw)) =
        newSideTexts (opSegments aw bw op) ++
        newSideTexts (rest.flatMap (opSegments aw bw)) := by
      simp [newSideTexts, List.filter_append]
    have hop : newSideTexts (opSegments aw bw op) =
        (newWordss bw [op]).map joinSpace := by
      rcases op with ⟨tag, i1, i2, j1, j2⟩
      cases tag <;> simp [opSegments, newSideTexts, newWordss]
    rw [List.flatMap_cons, hsplit, ih, hop]
    rw [show newWordss bw (op :: rest) =
      newWordss bw [op] ++ newWordss bw rest by simp [newWordss]]
    rw [List.map_append]

/-- C5 counterexample: for old text `""` and new text `"a  b"` (two
spaces), the diff is a single `added` segment with text `"a b"` (one
space), so no concatenation of the new-side segment texts reconstructs
the new input text exactly. -/
theorem c5_reconstruct_counterexample :
    create_inline_diff "" "a  b" = [⟨SegTag.added, "a b"⟩] ∧
    ("a b" : String) ≠ "a  b" := by
  exact ⟨by decide, by decide⟩

/-- C5 amended: the opcodes of a diff partition both token sequences in
order without omission (the old-side and new-side slices concatenate back
to the full token lists), and joining the new-side segment texts with
single spaces reconstructs the whitespace-normalized new input text
(its tokens joined by single spaces) rather than the raw text. -/
theorem c5_diff_partition_amended (old_text new_text : String) :
    ((getOpcodes (splitWs old_text) (splitWs new_text)).flatMap
        (fun op => pySlice (splitWs old_text) op.i1 op.i2) =
      splitWs old_text) ∧
    ((getOpcodes (splitWs old_text) (splitWs new_text)).flatMap
        (fun op => pySlice (splitWs new_text) op.j1 op.j2) =
      splitWs new_text) ∧
    joinSpace (newSideTexts (create_inline_diff old_text new_text)) =
      joinSpace (splitWs new_text) := by
  obtain ⟨hJ, hI, hF, hNE⟩ :=
    getOpcodes_tile (splitWs old_text) (splitWs new_text)
  refine ⟨hI, hJ, ?_⟩
  show joinSpace (newSideTexts ((getOpcodes (splitWs old_text)
    (splitWs new_text)).flatMap
      (opSegments (splitWs old_text) (splitWs new_text)))) = _
  rw [newSideTexts_eq, joinSpace_flatten _ hNE, hF]

end PromptVersioner
